import Mathlib

/-!
# go-reqbuilder: a verification development

A shallow embedding of `github.com/vcraescu/go-reqbuilder` (files `builder.go`,
`headers.go`, `options.go`, `util.go`) together with the parts of the Go standard
library the package calls (`net/textproto`, `net/http`, `net/url`, `path`,
`strings`).

Conventions of the embedding:

* A Go `string` is a Lean `String`; the library models work on its list of
  characters, one character standing for one byte.
* A Go `map[string][]string` (`http.Header`, `url.Values`) is an association list
  with one entry per key; the order of the entries is the order in which
  `range` visits the map.
* Go maps are references.  A `Builder` therefore stores the *address* of its header
  map, and the maps themselves live in a `Heap` that is passed explicitly through
  every function that allocates or writes a map.
* A Go `error` is a `GoError`; `fmt.Errorf("tag: %w", err)` is `GoError.wrap`.
* A Go reader is a stateful object.  A `Reader` gives its kind and the bytes it holds;
  which stream object stands behind the body of a request, and what a read of it
  returns after earlier reads, is given by `Builder.bodyObject` and `readAll`.
-/

namespace Reqbuilder

/-! ## Errors -/

/-- A Go error value: either created by `errors.New` or wrapping another error
through `fmt.Errorf("tag: %w", err)`. -/
inductive GoError where
  | leaf (msg : String)
  | wrap (tag : String) (inner : GoError)
  deriving DecidableEq, Repr

namespace GoError

/-- The method `Error()`: the message of the error. -/
def Error : GoError → String
  | leaf msg => msg
  | wrap tag inner => tag ++ ": " ++ inner.Error

/-- The method `Unwrap()` of the error produced by `fmt.Errorf` with `%w`. -/
def Unwrap : GoError → Option GoError
  | leaf _ => none
  | wrap _ inner => some inner

/-- The predicate `errors.Is(e, target)` for comparable errors: `target` occurs in the
chain obtained from `e` by repeated `Unwrap`. -/
def Is : GoError → GoError → Bool
  | leaf msg, target => decide (leaf msg = target)
  | wrap tag inner, target => decide (wrap tag inner = target) || Is inner target

end GoError

deriving instance DecidableEq for Except

/-! ## Header maps (`net/http`, `net/textproto`) -/

namespace textproto

/-- The table `isTokenTable` behind `validHeaderFieldByte`: the bytes allowed in a
header field name (RFC 7230 token characters). -/
def validHeaderFieldByte (c : Char) : Bool :=
  let n := c.toNat
  (97 ≤ n && n ≤ 122) || (65 ≤ n && n ≤ 90) || (48 ≤ n && n ≤ 57) ||
  n = 33 || n = 35 || n = 36 || n = 37 || n = 38 || n = 39 || n = 42 || n = 43 ||
  n = 45 || n = 46 || n = 94 || n = 95 || n = 96 || n = 124 || n = 126

/-- The second loop of `canonicalMIMEHeaderKey`: upper case for the first letter and
for every letter after a dash, lower case for the others. -/
def canonLoop : Bool → List Char → List Char
  | _, [] => []
  | upper, c :: cs =>
    let n := c.toNat
    let c1 :=
      if upper && (97 ≤ n && n ≤ 122) then Char.ofNat (n - 32)
      else if !upper && (65 ≤ n && n ≤ 90) then Char.ofNat (n + 32)
      else c
    c1 :: canonLoop (c1 = '-') cs

/-- The helper `canonicalMIMEHeaderKey(a []byte)`: a key holding a byte that is not a
token byte is returned unchanged, every other key is canonicalised. -/
def canonicalMIMEHeaderKeyBytes (a : List Char) : List Char :=
  if a.all validHeaderFieldByte then canonLoop true a else a

/-- The quick check of `CanonicalMIMEHeaderKey`: scan for the first byte that is
invalid (return the key unchanged) or not in canonical case (hand over to
`canonicalMIMEHeaderKeyBytes` with the whole key). -/
def quickCheck (whole : List Char) : Bool → List Char → List Char
  | _, [] => whole
  | upper, c :: cs =>
    let n := c.toNat
    if !validHeaderFieldByte c then whole
    else if upper && (97 ≤ n && n ≤ 122) then canonicalMIMEHeaderKeyBytes whole
    else if !upper && (65 ≤ n && n ≤ 90) then canonicalMIMEHeaderKeyBytes whole
    else quickCheck whole (c = '-') cs

/-- The function `textproto.CanonicalMIMEHeaderKey`. -/
def CanonicalMIMEHeaderKey (s : String) : String :=
  String.mk (quickCheck s.data true s.data)

end textproto

namespace http

/-- The type `http.Header`, that is `map[string][]string`: one entry per key, in
iteration order. -/
abbrev Header := List (String × List String)

namespace Header

/-- The two-result map read `vs, ok := h[k]`. -/
def lookup : Header → String → Option (List String)
  | [], _ => none
  | (k1, vs) :: t, k => if k1 = k then some vs else lookup t k

/-- The map read `h[k]`: the nil slice when the key is absent. -/
def get (h : Header) (k : String) : List String :=
  (lookup h k).getD []

/-- The map write `h[k] = vs`. -/
def assign : Header → String → List String → Header
  | [], k, vs => [(k, vs)]
  | (k1, vs1) :: t, k, vs =>
    if k1 = k then (k1, vs) :: t else (k1, vs1) :: assign t k vs

/-- The method `Header.Add` (`textproto.MIMEHeader.Add`):
`key = CanonicalMIMEHeaderKey(key); h[key] = append(h[key], value)`. -/
def Add (h : Header) (key value : String) : Header :=
  let key := textproto.CanonicalMIMEHeaderKey key
  assign h key (get h key ++ [value])

/-- The method `Header.Set` (`textproto.MIMEHeader.Set`):
`h[CanonicalMIMEHeaderKey(key)] = []string{value}`. -/
def Set (h : Header) (key value : String) : Header :=
  assign h (textproto.CanonicalMIMEHeaderKey key) [value]

end Header

end http

/-! ## The heap of header maps -/

/-- The maps allocated so far; the address of a map is its position. -/
structure Heap where
  maps : List http.Header
  deriving DecidableEq, Repr

namespace Heap

/-- The heap before any allocation. -/
def empty : Heap := ⟨[]⟩

/-- The map stored at an address. -/
def read (σ : Heap) (a : Nat) : http.Header := σ.maps.getD a []

/-- In-place update of the map stored at an address. -/
def write (σ : Heap) (a : Nat) (h : http.Header) : Heap := ⟨σ.maps.set a h⟩

/-- Allocation of a new map (`http.Header{}`, `make(Header)`): the address of the new
map and the extended heap. -/
def alloc (σ : Heap) (h : http.Header) : Nat × Heap := (σ.maps.length, ⟨σ.maps ++ [h]⟩)

/-- The address refers to an allocated map. -/
def valid (σ : Heap) (a : Nat) : Prop := a < σ.maps.length

instance (σ : Heap) (a : Nat) : Decidable (σ.valid a) := by
  unfold valid; infer_instance

end Heap

/-! ## util.go: header merging -/

/-- The function `mergeHeaders` of util.go: every value of every key of every source is
added (`dst.Add`) to the destination. -/
def mergeHeaders (dst : http.Header) (src : List http.Header) : http.Header :=
  src.foldl (fun dst srcHeader =>
    srcHeader.foldl (fun dst entry =>
      entry.2.foldl (fun dst v => http.Header.Add dst entry.1 v) dst) dst) dst

/-- The function `replaceHeaders` of util.go: every value of every key of every source
is set (`dst.Set`) on the destination. -/
def replaceHeaders (dst : http.Header) (src : List http.Header) : http.Header :=
  src.foldl (fun dst srcHeader =>
    srcHeader.foldl (fun dst entry =>
      entry.2.foldl (fun dst v => http.Header.Set dst entry.1 v) dst) dst) dst

/-! ## headers.go -/

/-- The function `Header(k, v)` of headers.go: a new map with `k` set to `v`. -/
def Header (k v : String) : http.Header :=
  http.Header.Set [] k v

/-- The function `ContentHeader`. -/
def ContentHeader (v : String) : http.Header := Header "Content-Type" v

/-- The function `AuthHeader`. -/
def AuthHeader (v : String) : http.Header := Header "Authorization" v

/-- The function `AuthBearerHeader`. -/
def AuthBearerHeader (token : String) : http.Header := AuthHeader ("Bearer " ++ token)

/-- The variable `JSONContentHeader`. -/
def JSONContentHeader : http.Header := ContentHeader "application/json"

/-- The variable `URLEncodedContentHeader`. -/
def URLEncodedContentHeader : http.Header := ContentHeader "application/x-www-form-urlencoded"

/-- The variable `JSONAcceptHeader`. -/
def JSONAcceptHeader : http.Header := Header "Accept" "application/json"

/-! ## The package `strings` -/

namespace strings

/-- The function `strings.HasPrefix`. -/
def HasPrefix (s pre : List Char) : Bool := pre.isPrefixOf s

/-- The function `strings.HasSuffix`. -/
def HasSuffix (s suf : List Char) : Bool := suf.isSuffixOf s

/-- The function `strings.TrimSuffix`: `s` without the trailing `suffix`, or `s` itself
when it does not end in `suffix`. -/
def TrimSuffix (s suffix : List Char) : List Char :=
  if HasSuffix s suffix then s.take (s.length - suffix.length) else s

/-- The function `strings.Index`: the position of the first occurrence of `sub`. -/
def Index : List Char → List Char → Option Nat
  | [], sub => if sub.isEmpty then some 0 else none
  | c :: cs, sub =>
    if sub.isPrefixOf (c :: cs) then some 0 else (Index cs sub).map (· + 1)

/-- The function `strings.IndexByte`, also `strings.Index` with a separator of one
byte. -/
def IndexByte (s : List Char) (c : Char) : Option Nat :=
  if c ∈ s then some (s.indexOf c) else none

/-- The function `strings.LastIndexByte`, also `strings.LastIndex` with a separator of
one byte. -/
def LastIndexByte (s : List Char) (c : Char) : Option Nat :=
  if c ∈ s then some (s.length - 1 - s.reverse.indexOf c) else none

/-- The function `strings.Contains` with a separator of one byte. -/
def ContainsByte (s : List Char) (c : Char) : Bool := s.contains c

/-- The function `strings.Count` with a separator of one byte. -/
def CountByte (s : List Char) (c : Char) : Nat := s.count c

/-- The function `strings.Cut` with a separator of one byte: the text before the first
separator, the text after it, and whether the separator was found. -/
def CutByte (s : List Char) (c : Char) : List Char × List Char × Bool :=
  match IndexByte s c with
  | some i => (s.take i, s.drop (i + 1), true)
  | none => (s, [], false)

/-- The function `strings.ToLower` on ASCII text. -/
def ToLower (s : List Char) : List Char :=
  s.map fun c => if 65 ≤ c.toNat ∧ c.toNat ≤ 90 then Char.ofNat (c.toNat + 32) else c

end strings

/-! ## The package `path` -/

namespace path

/-- The inner loop of the `..` case of `path.Clean`: starting from `w`, move back while
`w > dotdot` and the byte at `w` is not a slash. -/
def backtrack (out : List Char) (dotdot : Nat) : Nat → Nat
  | 0 => 0
  | w + 1 => if w + 1 > dotdot ∧ out.getD (w + 1) '/' ≠ '/' then backtrack out dotdot w else w + 1

/-- The main loop of `path.Clean` on the unread part of the path, the output written so
far and the index `dotdot`.  Every round reads at least one byte, so a fuel equal to
the number of unread bytes is enough. -/
def cleanLoop (rooted : Bool) : Nat → List Char → List Char → Nat → List Char
  | 0, _, out, _ => out
  | _ + 1, [], out, _ => out
  | fuel + 1, c :: rest, out, dotdot =>
    if c = '/' then
      cleanLoop rooted fuel rest out dotdot
    else if c = '.' ∧ (rest = [] ∨ rest.head? = some '/') then
      cleanLoop rooted fuel rest out dotdot
    else if c = '.' ∧ rest.head? = some '.' ∧ (rest.tail = [] ∨ rest.tail.head? = some '/') then
      if out.length > dotdot then
        cleanLoop rooted fuel rest.tail (out.take (backtrack out dotdot (out.length - 1))) dotdot
      else if !rooted then
        let out1 := if out.length > 0 then out ++ ['/'] else out
        cleanLoop rooted fuel rest.tail (out1 ++ ['.', '.']) (out1.length + 2)
      else
        cleanLoop rooted fuel rest.tail out dotdot
    else
      let out1 :=
        if (rooted ∧ out.length ≠ 1) ∨ (!rooted ∧ out.length ≠ 0) then out ++ ['/'] else out
      cleanLoop rooted fuel ((c :: rest).dropWhile (· ≠ '/'))
        (out1 ++ (c :: rest).takeWhile (· ≠ '/')) dotdot

/-- The function `path.Clean`. -/
def Clean (p : List Char) : List Char :=
  match p with
  | [] => ['.']
  | c :: rest =>
    let out :=
      if c = '/' then cleanLoop true (rest.length + 1) rest ['/'] 1
      else cleanLoop false (rest.length + 2) (c :: rest) [] 0
    if out = [] then ['.'] else out

/-- The loop of `path.Join` that glues the elements with slashes, skipping the empty
elements in front. -/
def joinBuf : List Char → List (List Char) → List Char
  | buf, [] => buf
  | buf, e :: es =>
    if buf.length > 0 ∨ e ≠ [] then
      joinBuf ((if buf.length > 0 then buf ++ ['/'] else buf) ++ e) es
    else joinBuf buf es

/-- The function `path.Join`. -/
def Join (elem : List (List Char)) : List Char :=
  if (elem.map List.length).sum = 0 then [] else Clean (joinBuf [] elem)

end path

/-! ## The package `net/url` -/

namespace url

/-- The modes of escaping of `net/url`. -/
inductive encoding where
  | encodePath
  | encodePathSegment
  | encodeHost
  | encodeZone
  | encodeUserPassword
  | encodeQueryComponent
  | encodeFragment
  deriving DecidableEq, Repr

open encoding

/-- The function `strconv.Quote` on text without quotes, backslashes and unprintable
bytes (used only inside error messages). -/
def quote (s : List Char) : String := "\"" ++ String.mk s ++ "\""

/-- The error type `url.EscapeError`. -/
def EscapeError (s : List Char) : GoError := .leaf ("invalid URL escape " ++ quote s)

/-- The error type `url.InvalidHostError`. -/
def InvalidHostError (s : List Char) : GoError :=
  .leaf ("invalid character " ++ quote s ++ " in host name")

/-- The function `ishex`. -/
def ishex (c : Char) : Bool :=
  let n := c.toNat
  (48 ≤ n && n ≤ 57) || (97 ≤ n && n ≤ 102) || (65 ≤ n && n ≤ 70)

/-- The function `unhex`. -/
def unhex (c : Char) : Nat :=
  let n := c.toNat
  if 48 ≤ n ∧ n ≤ 57 then n - 48
  else if 97 ≤ n ∧ n ≤ 102 then n - 97 + 10
  else if 65 ≤ n ∧ n ≤ 70 then n - 65 + 10
  else 0

/-- The unreserved alphanumeric bytes. -/
def isAlnum (c : Char) : Bool :=
  let n := c.toNat
  (97 ≤ n && n ≤ 122) || (65 ≤ n && n ≤ 90) || (48 ≤ n && n ≤ 57)

/-- The bytes that `shouldEscape` lets through in a host: the sub-delims, the colon,
the brackets, the angle brackets and the double quote. -/
def hostDelims : List Char :=
  ['!', '$', '&', Char.ofNat 39, '(', ')', '*', '+', ',', ';', '=', ':', '[', ']', '<', '>',
    Char.ofNat 34]

/-- The function `shouldEscape`: whether the byte must be escaped in the given mode. -/
def shouldEscape (c : Char) (mode : encoding) : Bool :=
  if isAlnum c then false
  else if (mode = encodeHost ∨ mode = encodeZone) ∧ c ∈ hostDelims then false
  else if c ∈ ['-', '_', '.', '~'] then false
  else if c ∈ ['$', '&', '+', ',', '/', ':', ';', '=', '?', '@'] ∧ mode = encodePath then
    c = '?'
  else if c ∈ ['$', '&', '+', ',', '/', ':', ';', '=', '?', '@'] ∧ mode = encodePathSegment then
    c = '/' ∨ c = ';' ∨ c = ',' ∨ c = '?'
  else if c ∈ ['$', '&', '+', ',', '/', ':', ';', '=', '?', '@'] ∧ mode = encodeUserPassword then
    c = '@' ∨ c = '/' ∨ c = '?' ∨ c = ':'
  else if c ∈ ['$', '&', '+', ',', '/', ':', ';', '=', '?', '@'] ∧ mode = encodeQueryComponent then
    true
  else if c ∈ ['$', '&', '+', ',', '/', ':', ';', '=', '?', '@'] ∧ mode = encodeFragment then
    false
  else if mode = encodeFragment ∧ c ∈ ['!', '(', ')', '*'] then false
  else true

/-- The table `upperhex`. -/
def upperhex (n : Nat) : Char := ("0123456789ABCDEF".data).getD n '0'

/-- The escaped form of one byte in the function `escape`. -/
def escapeByte (mode : encoding) (c : Char) : List Char :=
  if shouldEscape c mode then
    if c = ' ' ∧ mode = encodeQueryComponent then ['+']
    else ['%', upperhex (c.toNat / 16), upperhex (c.toNat % 16)]
  else [c]

/-- The function `escape`. -/
def escape : List Char → encoding → List Char
  | [], _ => []
  | c :: cs, mode => escapeByte mode c ++ escape cs mode

/-- The first pass of `unescape`: every `%` is followed by two hex digits, and the
restrictions of the host and zone modes hold. -/
def unescapeCheck (mode : encoding) : List Char → Except GoError Unit
  | [] => .ok ()
  | c :: rest =>
    if c = '%' then
      match rest with
      | h1 :: h2 :: rest2 =>
        if !ishex h1 || !ishex h2 then .error (EscapeError [c, h1, h2])
        else if mode = encodeHost ∧ unhex h1 < 8 ∧ [c, h1, h2] ≠ ['%', '2', '5'] then
          .error (EscapeError [c, h1, h2])
        else if mode = encodeZone ∧ [c, h1, h2] ≠ ['%', '2', '5'] ∧
            unhex h1 * 16 + unhex h2 ≠ 32 ∧
            shouldEscape (Char.ofNat (unhex h1 * 16 + unhex h2)) encodeHost then
          .error (EscapeError [c, h1, h2])
        else unescapeCheck mode rest2
      | _ => .error (EscapeError (c :: rest))
    else if c = '+' then unescapeCheck mode rest
    else if (mode = encodeHost ∨ mode = encodeZone) ∧ c.toNat < 128 ∧
        shouldEscape c encodeHost then
      .error (InvalidHostError [c])
    else unescapeCheck mode rest

/-- The second pass of `unescape`: the text with every escape decoded. -/
def unescapeDecode (mode : encoding) : List Char → List Char
  | [] => []
  | c :: rest =>
    if c = '%' then
      match rest with
      | h1 :: h2 :: rest2 => Char.ofNat (unhex h1 * 16 + unhex h2) :: unescapeDecode mode rest2
      | _ => []
    else if c = '+' then
      (if mode = encodeQueryComponent then ' ' else '+') :: unescapeDecode mode rest
    else c :: unescapeDecode mode rest

/-- The function `unescape`. -/
def unescape (s : List Char) (mode : encoding) : Except GoError (List Char) :=
  match unescapeCheck mode s with
  | .error e => .error e
  | .ok _ => .ok (unescapeDecode mode s)

/-- The function `validEncoded`. -/
def validEncoded (s : List Char) (mode : encoding) : Bool :=
  s.all fun c =>
    if c ∈ ['!', '$', '&', Char.ofNat 39, '(', ')', '*', '+', ',', ';', '=', ':', '@'] then true
    else if c = '[' ∨ c = ']' then true
    else if c = '%' then true
    else !shouldEscape c mode

/-- The function `QueryEscape`. -/
def QueryEscape (s : List Char) : List Char := escape s encodeQueryComponent

/-- The type `url.Userinfo`. -/
structure Userinfo where
  username : List Char
  password : List Char
  passwordSet : Bool
  deriving DecidableEq, Repr

/-- The method `Userinfo.String`. -/
def Userinfo.String (u : Userinfo) : List Char :=
  escape u.username encodeUserPassword ++
    (if u.passwordSet then ':' :: escape u.password encodeUserPassword else [])

/-- The type `url.URL`. -/
structure URL where
  Scheme : List Char := []
  Opaque : List Char := []
  User : Option Userinfo := none
  Host : List Char := []
  Path : List Char := []
  RawPath : List Char := []
  OmitHost : Bool := false
  ForceQuery : Bool := false
  RawQuery : List Char := []
  Fragment : List Char := []
  RawFragment : List Char := []
  deriving DecidableEq, Repr

/-- The method `URL.setPath`. -/
def URL.setPath (u : URL) (p : List Char) : Except GoError URL :=
  match unescape p encodePath with
  | .error e => .error e
  | .ok path =>
    .ok { u with Path := path, RawPath := if p = escape path encodePath then [] else p }

/-- The method `URL.setFragment`. -/
def URL.setFragment (u : URL) (f : List Char) : Except GoError URL :=
  match unescape f encodeFragment with
  | .error e => .error e
  | .ok frag =>
    .ok { u with Fragment := frag,
                 RawFragment := if f = escape frag encodeFragment then [] else f }

/-- The method `URL.EscapedPath`. -/
def URL.EscapedPath (u : URL) : List Char :=
  let hint : Bool :=
    match unescape u.RawPath encodePath with
    | .ok p => u.RawPath ≠ [] && validEncoded u.RawPath encodePath && p = u.Path
    | .error _ => false
  if hint then u.RawPath
  else if u.Path = ['*'] then ['*']
  else escape u.Path encodePath

/-- The method `URL.EscapedFragment`. -/
def URL.EscapedFragment (u : URL) : List Char :=
  let hint : Bool :=
    match unescape u.RawFragment encodeFragment with
    | .ok f => u.RawFragment ≠ [] && validEncoded u.RawFragment encodeFragment && f = u.Fragment
    | .error _ => false
  if hint then u.RawFragment
  else escape u.Fragment encodeFragment

/-- The method `URL.String`. -/
def URL.String (u : URL) : List Char :=
  let buf0 : List Char := if u.Scheme ≠ [] then u.Scheme ++ [':'] else []
  let buf1 : List Char :=
    if u.Opaque ≠ [] then buf0 ++ u.Opaque
    else
      let auth : List Char :=
        if u.Scheme ≠ [] ∨ u.Host ≠ [] ∨ u.User.isSome then
          if u.OmitHost ∧ u.Host = [] ∧ u.User.isNone then []
          else
            (if u.Host ≠ [] ∨ u.Path ≠ [] ∨ u.User.isSome then ['/', '/'] else []) ++
            (match u.User with
              | some ui => ui.String ++ ['@']
              | none => []) ++
            (if u.Host ≠ [] then escape u.Host encodeHost else [])
        else []
      let buf := buf0 ++ auth
      let p := u.EscapedPath
      let buf := if p ≠ [] ∧ p.head? ≠ some '/' ∧ u.Host ≠ [] then buf ++ ['/'] else buf
      let buf :=
        if buf = [] ∧ (strings.CutByte p '/').1.contains ':' then buf ++ ['.', '/'] else buf
      buf ++ p
  let buf2 := if u.ForceQuery ∨ u.RawQuery ≠ [] then buf1 ++ '?' :: u.RawQuery else buf1
  if u.Fragment ≠ [] then buf2 ++ '#' :: u.EscapedFragment else buf2

/-- The error type `url.Error`, whose message is `op "url": err`. -/
def Error (op : String) (rawURL : List Char) (err : GoError) : GoError :=
  .wrap (op ++ " " ++ quote rawURL) err

/-- The function `stringContainsCTLByte`. -/
def stringContainsCTLByte (s : List Char) : Bool :=
  s.any fun c => c.toNat < 32 || c.toNat = 127

/-- The loop of `getScheme` at index `i`, with the unread text. -/
def getSchemeLoop (rawURL : List Char) : Nat → List Char → Except GoError (List Char × List Char)
  | _, [] => .ok ([], rawURL)
  | i, c :: cs =>
    let n := c.toNat
    if (97 ≤ n ∧ n ≤ 122) ∨ (65 ≤ n ∧ n ≤ 90) then getSchemeLoop rawURL (i + 1) cs
    else if (48 ≤ n ∧ n ≤ 57) ∨ c = '+' ∨ c = '-' ∨ c = '.' then
      if i = 0 then .ok ([], rawURL) else getSchemeLoop rawURL (i + 1) cs
    else if c = ':' then
      if i = 0 then .error (.leaf "missing protocol scheme") else .ok (rawURL.take i, cs)
    else .ok ([], rawURL)

/-- The function `getScheme`: the scheme and the text after its colon, or no scheme
and the whole text. -/
def getScheme (rawURL : List Char) : Except GoError (List Char × List Char) :=
  getSchemeLoop rawURL 0 rawURL

/-- The function `validOptionalPort`. -/
def validOptionalPort (port : List Char) : Bool :=
  match port with
  | [] => true
  | c :: rest => c = ':' && rest.all fun b => 48 ≤ b.toNat && b.toNat ≤ 57

/-- The function `validUserinfo`. -/
def validUserinfo (s : List Char) : Bool :=
  s.all fun r =>
    isAlnum r ||
    r ∈ ['-', '.', '_', ':', '~', '!', '$', '&', Char.ofNat 39, '(', ')', '*', '+', ',', ';',
      '=', '%', '@']

/-- The function `parseHost`. -/
def parseHost (host : List Char) : Except GoError (List Char) :=
  if strings.HasPrefix host ['['] then
    match strings.LastIndexByte host ']' with
    | none => .error (.leaf "missing ']' in host")
    | some i =>
      if !validOptionalPort (host.drop (i + 1)) then
        .error (.leaf ("invalid port " ++ quote (host.drop (i + 1)) ++ " after host"))
      else
        match strings.Index (host.take i) ['%', '2', '5'] with
        | some zone =>
          match unescape (host.take zone) encodeHost with
          | .error e => .error e
          | .ok host1 =>
            match unescape ((host.take i).drop zone) encodeZone with
            | .error e => .error e
            | .ok host2 =>
              match unescape (host.drop i) encodeHost with
              | .error e => .error e
              | .ok host3 => .ok (host1 ++ host2 ++ host3)
        | none => unescape host encodeHost
  else
    match strings.LastIndexByte host ':' with
    | some i =>
      if !validOptionalPort (host.drop i) then
        .error (.leaf ("invalid port " ++ quote (host.drop i) ++ " after host"))
      else unescape host encodeHost
    | none => unescape host encodeHost

/-- The user part of `parseAuthority`: the text before the last `@`. -/
def parseUserinfo (userinfo : List Char) : Except GoError Userinfo :=
  if !validUserinfo userinfo then .error (.leaf "net/url: invalid userinfo")
  else if !strings.ContainsByte userinfo ':' then
    match unescape userinfo encodeUserPassword with
    | .error e => .error e
    | .ok username => .ok ⟨username, [], false⟩
  else
    match unescape (strings.CutByte userinfo ':').1 encodeUserPassword with
    | .error e => .error e
    | .ok username =>
      match unescape (strings.CutByte userinfo ':').2.1 encodeUserPassword with
      | .error e => .error e
      | .ok password => .ok ⟨username, password, true⟩

/-- The function `parseAuthority`. -/
def parseAuthority (authority : List Char) : Except GoError (Option Userinfo × List Char) :=
  match strings.LastIndexByte authority '@' with
  | none =>
    match parseHost authority with
    | .error e => .error e
    | .ok host => .ok (none, host)
  | some i =>
    match parseHost (authority.drop (i + 1)) with
    | .error e => .error e
    | .ok host =>
      match parseUserinfo (authority.take i) with
      | .error e => .error e
      | .ok user => .ok (some user, host)

/-- The last step of `parse`: authority and path of a text that has lost its scheme and
query. -/
def parseRest (u : URL) (rest : List Char) (viaRequest : Bool) : Except GoError URL :=
  if (u.Scheme ≠ [] ∨ (!viaRequest ∧ !strings.HasPrefix rest ['/', '/', '/'])) ∧
      strings.HasPrefix rest ['/', '/'] then
    let authority := rest.drop 2
    match strings.IndexByte authority '/' with
    | some i =>
      match parseAuthority (authority.take i) with
      | .error e => .error e
      | .ok r => ({ u with User := r.1, Host := r.2 }).setPath (authority.drop i)
    | none =>
      match parseAuthority authority with
      | .error e => .error e
      | .ok r => ({ u with User := r.1, Host := r.2 }).setPath []
  else if u.Scheme ≠ [] ∧ strings.HasPrefix rest ['/'] then
    ({ u with OmitHost := true }).setPath rest
  else u.setPath rest

/-- The function `parse`. -/
def parse (rawURL : List Char) (viaRequest : Bool) : Except GoError URL :=
  if stringContainsCTLByte rawURL then
    .error (.leaf "net/url: invalid control character in URL")
  else if rawURL = [] ∧ viaRequest then .error (.leaf "empty url")
  else if rawURL = ['*'] then .ok { Path := ['*'] }
  else
    match getScheme rawURL with
    | .error e => .error e
    | .ok sr =>
      let force : Bool := strings.HasSuffix sr.2 ['?'] && strings.CountByte sr.2 '?' = 1
      let rest := if force then sr.2.dropLast else (strings.CutByte sr.2 '?').1
      let u : URL :=
        { Scheme := strings.ToLower sr.1, ForceQuery := force,
          RawQuery := if force then [] else (strings.CutByte sr.2 '?').2.1 }
      if !strings.HasPrefix rest ['/'] ∧ u.Scheme ≠ [] then .ok { u with Opaque := rest }
      else if !strings.HasPrefix rest ['/'] ∧ viaRequest then
        .error (.leaf "invalid URI for request")
      else if !strings.HasPrefix rest ['/'] ∧ (strings.CutByte rest '/').1.contains ':' then
        .error (.leaf "first path segment in URL cannot contain colon")
      else parseRest u rest viaRequest

/-- The function `url.Parse`. -/
def Parse (rawURL : List Char) : Except GoError URL :=
  match parse (strings.CutByte rawURL '#').1 false with
  | .error e => .error (Error "parse" (strings.CutByte rawURL '#').1 e)
  | .ok u =>
    if (strings.CutByte rawURL '#').2.1 = [] then .ok u
    else
      match u.setFragment (strings.CutByte rawURL '#').2.1 with
      | .error e => .error (Error "parse" rawURL e)
      | .ok u1 => .ok u1

/-- The method `URL.JoinPath`: the path of `u` joined with the elements and cleaned,
one trailing slash kept. -/
def URL.JoinPath (u : URL) (elem : List (List Char)) : URL :=
  let rel : Bool := !strings.HasPrefix u.EscapedPath ['/']
  let elems := (if rel then '/' :: u.EscapedPath else u.EscapedPath) :: elem
  let p := if rel then (path.Join elems).drop 1 else path.Join elems
  let p :=
    if strings.HasSuffix (elems.getLastD []) ['/'] ∧ !strings.HasSuffix p ['/'] then p ++ ['/']
    else p
  match u.setPath p with
  | .ok u1 => u1
  | .error _ => u

/-- The function `url.JoinPath`. -/
def JoinPath (base : List Char) (elem : List (List Char)) : Except GoError (List Char) :=
  match Parse base with
  | .error e => .error e
  | .ok u => .ok (u.JoinPath elem).String

/-- The type `url.Values`, that is `map[string][]string`. -/
abbrev Values := List (String × List String)

/-- Insertion of a key into a sorted list of keys (byte-wise order). -/
def insertKey (k : String) : List String → List String
  | [] => [k]
  | k1 :: ks => if k.data ≤ k1.data then k :: k1 :: ks else k1 :: insertKey k ks

/-- The keys of the map in increasing order (`slices.Sort(keys)`). -/
def sortedKeys (v : Values) : List String :=
  v.foldr (fun e ks => insertKey e.1 ks) []

/-- The `key=value` pairs that `Encode` writes for one key. -/
def encodeKey (k : String) (vs : List String) : List (List Char) :=
  vs.map fun x => QueryEscape k.data ++ '=' :: QueryEscape x.data

/-- The method `Values.Encode`: the pairs sorted by key and joined by `&`. -/
def Values.Encode (v : Values) : String :=
  String.mk (List.intercalate ['&']
    ((sortedKeys v).map (fun k => encodeKey k (http.Header.get v k))).flatten)

end url

/-! ## Values of type `any` and body streams -/

/-- A value implementing `io.Reader`, given by its kind and the bytes it holds when it is
handed over.  A Go reader is a stateful object: what a read returns depends on the reads
before it.  That state is kept apart, in the list of streams already read that `readAll`
takes and returns. -/
inductive Reader where
  /-- The value `http.NoBody`, with no bytes. -/
  | noBody
  /-- The result of `bytes.NewReader(b)`. -/
  | bytesReader (b : List UInt8)
  /-- The result of `strings.NewReader(s)`. -/
  | stringsReader (s : String)
  /-- The result of `bytes.NewBuffer(b)`. -/
  | bytesBuffer (b : List UInt8)
  /-- Any other stream, identified by a name, with the bytes it still holds and
  whether it also implements `io.Closer`. -/
  | stream (name : String) (data : List UInt8) (closer : Bool)
  /-- The result of `io.NopCloser(r)`. -/
  | nopCloser (r : Reader)
  deriving DecidableEq, Repr

/-- The bytes of a Go string. -/
def bytesOf (s : String) : List UInt8 := s.data.map fun c => c.toNat.toUInt8

/-- The bytes that the stream holds, which `io.ReadAll` returns when the stream has not
been read before. -/
def Reader.content : Reader → List UInt8
  | .noBody => []
  | .bytesReader b => b
  | .stringsReader s => bytesOf s
  | .bytesBuffer b => b
  | .stream _ data _ => data
  | .nopCloser r => r.content

/-- A Go value whose dynamic type is none of `nil`, `[]byte`, `string` and a type
implementing `io.Reader`: the name of its type and a rendering of its value. -/
structure Dyn where
  typeName : String
  repr : String
  deriving DecidableEq, Repr

/-- A value of the Go type `any`, by the cases of the type switch of
`getBodyReader`. -/
inductive Any where
  | nil
  | bytes (b : List UInt8)
  | string (s : String)
  | reader (r : Reader)
  | other (v : Dyn)
  deriving DecidableEq, Repr

/-! ## The package `net/http` -/

namespace http

/-- The constant `http.MethodGet`. -/
def MethodGet : String := "GET"

/-- The constant `http.MethodPost`. -/
def MethodPost : String := "POST"

/-- A non-nil `context.Context`. -/
structure Context where
  id : Nat
  deriving DecidableEq, Repr

/-- The function `context.Background`. -/
def Background : Context := ⟨0⟩

/-- The type `http.Request`: the fields that `NewRequestWithContext` fills from its
arguments (`Header` is the address of the header map of the request). -/
structure Request where
  ctx : Context
  Method : String
  URL : url.URL
  Header : Nat
  Body : Reader
  ContentLength : Nat
  Host : String
  deriving DecidableEq, Repr

/-- The function `validMethod`: a non-empty sequence of token bytes. -/
def validMethod (method : String) : Bool :=
  method.data ≠ [] && method.data.all textproto.validHeaderFieldByte

/-- The function `removeEmptyPort`. -/
def removeEmptyPort (host : List Char) : List Char :=
  let hasPort : Bool :=
    match strings.LastIndexByte host ':', strings.LastIndexByte host ']' with
    | some i, some j => decide (i > j)
    | some _, none => true
    | none, _ => false
  if hasPort then strings.TrimSuffix host [':'] else host

/-- Whether the stream implements `io.ReadCloser`. -/
def isReadCloser : Reader → Bool
  | .noBody => true
  | .stream _ _ closer => closer
  | .nopCloser _ => true
  | _ => false

/-- The length that `NewRequestWithContext` reads off the three stream types it knows
(`*bytes.Buffer`, `*bytes.Reader`, `*strings.Reader`), if the body is one of them. -/
def knownLen : Reader → Option Nat
  | .bytesBuffer b => some b.length
  | .bytesReader b => some b.length
  | .stringsReader s => some s.data.length
  | _ => none

/-- The function `http.NewRequestWithContext` (with a non-nil body): the request, whose
fresh header map is allocated on the heap, or an error. -/
def NewRequestWithContext (σ : Heap) (ctx : Option Context) (method rawURL : String)
    (body : Reader) : Except GoError Request × Heap :=
  let method := if method = "" then "GET" else method
  if !validMethod method then
    (.error (.leaf ("net/http: invalid method " ++ url.quote method.data)), σ)
  else
    match ctx with
    | none => (.error (.leaf "net/http: nil Context"), σ)
    | some ctx =>
      match url.Parse rawURL.data with
      | .error err => (.error err, σ)
      | .ok u =>
        let rc := if isReadCloser body then body else .nopCloser body
        let u := { u with Host := removeEmptyPort u.Host }
        let a := σ.alloc []
        (.ok { ctx := ctx, Method := method, URL := u, Header := a.1,
               Body := if knownLen body = some 0 then .noBody else rc,
               ContentLength := (knownLen body).getD 0,
               Host := String.mk u.Host }, a.2)

end http

/-! ## util.go: URL assembly -/

/-- The function `buildURL` of util.go. -/
def buildURL (baseURL path rawQuery : String) : Except GoError String :=
  match url.JoinPath baseURL.data [path.data] with
  | .error err => .error (.wrap "joinPath" err)
  | .ok rawURL =>
    match url.Parse rawURL with
    | .error err => .error (.wrap "parse" err)
    | .ok u => .ok (String.mk ({ u with RawQuery := rawQuery.data }).String)

/-! ## builder.go and options.go -/

/-- The interface `BodyMarshaler`: the method `Marshal(v any) ([]byte, error)`. -/
abbrev BodyMarshaler := Any → Except GoError (List UInt8)

/-- The interface `URLValuesMarshaler`: the method `Marshal(v any) (url.Values, error)`. -/
abbrev URLValuesMarshaler := Any → Except GoError url.Values

/-- The struct `builderOptions` of options.go. -/
structure builderOptions where
  bodyMarshaler : BodyMarshaler
  urlValuesMarshaler : URLValuesMarshaler

/-- The interface `BuilderOption`: the method `apply(cfg *builderOptions)`. -/
abbrev BuilderOption := builderOptions → builderOptions

/-- The option `WithBodyMarshaler` of options.go. -/
def WithBodyMarshaler (marshaler : BodyMarshaler) : BuilderOption :=
  fun opts => { opts with bodyMarshaler := marshaler }

/-- The option `WithURLValuesMarshaler` of options.go. -/
def WithURLValuesMarshaler (marshaler : URLValuesMarshaler) : BuilderOption :=
  fun opts => { opts with urlValuesMarshaler := marshaler }

/-- The two functions of other modules that options.go installs as defaults:
`json.Marshal` of `encoding/json` and `urlvalues.Marshal` of
`github.com/vcraescu/go-urlvalues`. -/
structure Extern where
  jsonMarshal : BodyMarshaler
  urlvaluesMarshal : URLValuesMarshaler

/-- The function `defaultBuilderOptions` of options.go. -/
def defaultBuilderOptions (ext : Extern) (opts : List BuilderOption) : builderOptions :=
  opts.foldl (fun options opt => opt options)
    { bodyMarshaler := ext.jsonMarshal, urlValuesMarshaler := ext.urlvaluesMarshal }

/-- The struct `Builder`; `header` is the address of the header map. -/
structure Builder where
  method : String
  path : String
  baseURL : String
  body : Any
  header : Nat
  bodyMarshaler : BodyMarshaler
  urlValuesMarshaler : URLValuesMarshaler
  params : Any

/-- The function `NewBuilder`. -/
def NewBuilder (ext : Extern) (σ : Heap) (baseURL : String) (opts : List BuilderOption) :
    Builder × Heap :=
  let options := defaultBuilderOptions ext opts
  let a := σ.alloc []
  ({ baseURL := String.mk (strings.TrimSuffix baseURL.data " /".data),
     method := http.MethodGet,
     header := a.1,
     body := .reader .noBody,
     bodyMarshaler := options.bodyMarshaler,
     urlValuesMarshaler := options.urlValuesMarshaler,
     path := "",
     params := .nil }, a.2)

namespace Builder

/-- The method `WithMethod`. -/
def WithMethod (b : Builder) (method : String) : Builder :=
  { b with method := method }

/-- The method `WithPath`. -/
def WithPath (b : Builder) (path : String) : Builder :=
  { b with path := path }

/-- The method `WithBody`. -/
def WithBody (b : Builder) (body : Any) : Builder :=
  { b with body := body }

/-- The method `WithBodyMarshaler`. -/
def WithBodyMarshaler (b : Builder) (bodyMarshaler : BodyMarshaler) : Builder :=
  { b with bodyMarshaler := bodyMarshaler }

/-- The method `WithHeaders`: the sources are merged into the map at the address
`b.header`, and the returned copy of `b` holds the same address. -/
def WithHeaders (σ : Heap) (b : Builder) (headers : List http.Header) : Builder × Heap :=
  (b, σ.write b.header (mergeHeaders (σ.read b.header) headers))

/-- The method `WithParams`. -/
def WithParams (b : Builder) (params : Any) : Builder :=
  { b with params := params }

/-- The method `getBodyReader`. -/
def getBodyReader (b : Builder) : Except GoError Reader :=
  match b.body with
  | .nil => .ok .noBody
  | .bytes body => .ok (.bytesReader body)
  | .string body => .ok (.stringsReader body)
  | .reader body => .ok body
  | .other _ =>
    match b.bodyMarshaler b.body with
    | .error err => .error (.wrap "marshal" err)
    | .ok data => .ok (.bytesBuffer data)

/-- The method `Build`: the pair of results of the Go function (`nil` is `none`) and
the heap after the call. -/
def Build (σ : Heap) (b : Builder) (ctx : Option http.Context) :
    (Option http.Request × Option GoError) × Heap :=
  match b.getBodyReader with
  | .error err => ((none, some (.wrap "getBodyReader" err)), σ)
  | .ok body =>
    match b.urlValuesMarshaler b.params with
    | .error err => ((none, some (.wrap "marshal url values" err)), σ)
    | .ok urlValues =>
      match buildURL b.baseURL b.path (url.Values.Encode urlValues) with
      | .error err => ((none, some (.wrap "buildURL" err)), σ)
      | .ok rawURL =>
        match http.NewRequestWithContext σ ctx b.method rawURL body with
        | (.error err, σ1) => ((none, some (.wrap "newRequestWithContext" err)), σ1)
        | (.ok req, σ1) =>
          ((some req, none),
            σ1.write req.Header (replaceHeaders (σ1.read req.Header) [σ1.read b.header]))

end Builder

/-! ## The inputs of URL assembly -/

/-- A plain byte: a letter, a digit or one of `-`, `_`, `.`, `~` (the unreserved
characters of RFC 3986). -/
def isPlain (c : Char) : Bool :=
  url.isAlnum c || decide (c ∈ ['-', '_', '.', '~'])

/-- A byte that may follow the first letter of a scheme: a letter of either case, a
digit or one of `+`, `-`, `.`. -/
def isSchemeByte (c : Char) : Bool :=
  (97 ≤ c.toNat && c.toNat ≤ 122) || (65 ≤ c.toNat && c.toNat ≤ 90) ||
    (48 ≤ c.toNat && c.toNat ≤ 57) || decide (c ∈ ['+', '-', '.'])

/-- A scheme (RFC 3986): a letter of either case followed by scheme bytes. -/
def isScheme (s : List Char) : Bool :=
  match s with
  | [] => false
  | c :: cs =>
    ((97 ≤ c.toNat && c.toNat ≤ 122) || (65 ≤ c.toNat && c.toNat ≤ 90)) && cs.all isSchemeByte

/-- A host name: a non-empty sequence of plain bytes. -/
def isHost (h : List Char) : Bool :=
  !h.isEmpty && h.all isPlain

/-- A plain path segment: a non-empty sequence of plain bytes other than `.` and
`..`. -/
def isSegment (s : List Char) : Bool :=
  !s.isEmpty && s.all isPlain && decide (s ≠ ['.']) && decide (s ≠ ['.', '.'])

/-- A text: the empty text, or `/` when the flag is set. -/
def optSlash (flag : Bool) : List Char := if flag then ['/'] else []

/-- A byte of a plain path: a plain byte or the slash. -/
def isPathByte (c : Char) : Bool := isPlain c || decide (c = '/')

/-! ## Stand-ins and sample runs used where the model is evaluated -/

/-- A stand-in for the two external marshalers, used where the model is evaluated at a
concrete input: the body marshaler returns the rendering of a structured value, the
params marshaler returns no values for `nil` params and fails on anything else. -/
def sampleExtern : Extern where
  jsonMarshal := fun v =>
    match v with
    | .other d => .ok (bytesOf d.repr)
    | _ => .ok []
  urlvaluesMarshal := fun v =>
    match v with
    | .nil => .ok []
    | _ => .error (.leaf "urlvalues: unsupported value")

/-- A body marshaler that fails on every input. -/
def failingBodyMarshaler (e : GoError) : BodyMarshaler := fun _ => .error e

/-- A params marshaler that fails on every input. -/
def failingParamsMarshaler (e : GoError) : URLValuesMarshaler := fun _ => .error e

/-- The values that the sources hold for the canonical key `k`: the entries of the
first source, then of the second, and so on, restricted to the entries whose name
canonicalises to `k`, with their value lists concatenated. -/
def sourceValues (src : List http.Header) (k : String) : List String :=
  ((src.flatten.filter fun e => textproto.CanonicalMIMEHeaderKey e.1 = k).map (·.2)).flatten

/-- A fresh builder with a method and a path whose params marshaler fails with "boom". -/
def paramsFailBuilder : Builder :=
  ((NewBuilder sampleExtern Heap.empty "https://example.com"
      [WithURLValuesMarshaler (failingParamsMarshaler (.leaf "boom"))]).1.WithPath
    "/foo").WithMethod "POST"

/-- A builder with a structured body, a body marshaler failing with "e1" and a params
marshaler failing with "e2". -/
def bothFailBuilder : Builder :=
  (((NewBuilder sampleExtern Heap.empty "https://example.com"
      [WithURLValuesMarshaler (failingParamsMarshaler (.leaf "e2"))]).1.WithBody
    (.other ⟨"Body", "x"⟩)).WithBodyMarshaler (failingBodyMarshaler (.leaf "e1")))

/-- A fresh builder for `https://example.com`. -/
def bytesBodyBuilder : Builder :=
  (NewBuilder sampleExtern Heap.empty "https://example.com" []).1

/-- The request that `Build` returns for `bytesBodyBuilder` once its body is the bytes
1, 2, 3. -/
def bytesBodyRequest : http.Request where
  ctx := http.Background
  Method := "GET"
  URL := { Scheme := "https".data, Host := "example.com".data }
  Header := 1
  Body := .nopCloser (.bytesReader [1, 2, 3])
  ContentLength := 3
  Host := "example.com"

/-- A builder with two headers, a path and a text body, and the heap that holds its
header map. -/
def twiceBuilder : Builder × Heap :=
  Builder.WithHeaders (NewBuilder sampleExtern Heap.empty "https://example.com" []).2
    (((NewBuilder sampleExtern Heap.empty "https://example.com" []).1.WithPath
      "/foo/bar").WithBody (.string "abc"))
    [JSONAcceptHeader, JSONContentHeader]

/-- The run of the test `TestBuilder_BuildWithHeader` with a sibling branch added: the
fresh builder `b0`, the branches `b1 := b0.WithHeaders(JSONContentHeader)` and
`b2 := b0.WithHeaders(JSONAcceptHeader)`, then `b1.Build`, `b2.Build` and `b0.Build`.
The result lists the header map of `b0` before the branches, the header maps of `b0`,
`b1` and `b2` after them, and the headers of the three requests. -/
def headerIsolationRun : List (Option http.Header) :=
  let r0 := NewBuilder sampleExtern Heap.empty "https://example.com" []
  let r1 := r0.1.WithHeaders r0.2 [JSONContentHeader]
  let r2 := r0.1.WithHeaders r1.2 [JSONAcceptHeader]
  let q1 := r1.1.Build r2.2 (some http.Background)
  let q2 := r2.1.Build q1.2 (some http.Background)
  let q0 := r0.1.Build q2.2 (some http.Background)
  [some (r0.2.read r0.1.header),
   some (r2.2.read r0.1.header), some (r2.2.read r1.1.header), some (r2.2.read r2.1.header),
   q1.1.1.map fun req => q0.2.read req.Header,
   q2.1.1.map fun req => q0.2.read req.Header,
   q0.1.1.map fun req => q0.2.read req.Header]

/-- The run `NewBuilder(u).WithHeaders(Header("Accept","a")).WithHeaders(Header("Accept",
"b")).Build(ctx)`: the header map of the builder, and the headers of the request. -/
def acceptTwiceRun : http.Header × Option http.Header :=
  let r0 := NewBuilder sampleExtern Heap.empty "https://example.com" []
  let r1 := r0.1.WithHeaders r0.2 [Header "Accept" "a"]
  let r2 := r1.1.WithHeaders r1.2 [Header "Accept" "b"]
  let q := r2.1.Build r2.2 (some http.Background)
  (q.2.read r2.1.header, q.1.1.map fun req => q.2.read req.Header)

/-! ## Reading the body of a request -/

/-- The stream object behind the body of a request.  `getBodyReader` returns the reader
that the caller stored in the builder as it is, to every call of `Build`; in its other
cases it makes a new reader (`bytes.NewReader`, `strings.NewReader`, `bytes.NewBuffer`) in
every call. -/
inductive StreamObject where
  /-- The reader that the caller stored in the builder. -/
  | caller (r : Reader)
  /-- The reader made by one call of `Build`; the call is named by the address of the
  header map it allocated for its request, which no other call allocates. -/
  | made (request : Nat)
  deriving DecidableEq, Repr

/-- The stream object that `Build` on the builder `b` puts behind the body of the request
`req` it returns, by the cases of `getBodyReader`. -/
def Builder.bodyObject (b : Builder) (req : http.Request) : StreamObject :=
  match b.body with
  | .reader r => .caller r
  | _ => .made req.Header

/-- The helper `readAll` of builder_test.go (`io.ReadAll`) on the body of a request, with
the list of the stream objects read so far: a stream read before is at its end and gives
no bytes, another one gives all its bytes and is then at its end. -/
def readAll (read : List StreamObject) (obj : StreamObject) (body : Reader) :
    List UInt8 × List StreamObject :=
  if obj ∈ read then ([], read) else (body.content, obj :: read)

/-- Two calls of `Build` on the builder, the second on the heap left by the first, then
`readAll` on the body of the first request and on the body of the second: the bytes of
the two reads, if both calls return a request. -/
def buildTwiceAndRead (b : Builder) (σ : Heap) (ctx : Option http.Context) :
    Option (List UInt8 × List UInt8) :=
  match (b.Build σ ctx).1.1, (b.Build (b.Build σ ctx).2 ctx).1.1 with
  | some q1, some q2 =>
    some ((readAll [] (b.bodyObject q1) q1.Body).1,
      (readAll (readAll [] (b.bodyObject q1) q1.Body).2 (b.bodyObject q2) q2.Body).1)
  | _, _ => none

/-- A builder whose body is a stream of the caller holding the bytes of "abc", and the
heap that holds its header map. -/
def streamBuilder : Builder × Heap :=
  ((NewBuilder sampleExtern Heap.empty "https://example.com" []).1.WithBody
      (.reader (.stream "upload" [97, 98, 99] false)),
    (NewBuilder sampleExtern Heap.empty "https://example.com" []).2)

/-! ## The library models on known inputs -/

/-- The model of `path.Clean` on cases of the table `cleantests` of the Go library. -/
theorem Clean_known :
    path.Clean "//foo/bar".data = "/foo/bar".data ∧
    path.Clean "///foo//bar/".data = "/foo/bar".data ∧
    path.Clean "/a/b/../c/./d".data = "/a/c/d".data ∧
    path.Clean "abc/def/../..".data = ".".data ∧
    path.Clean "../../abc".data = "../../abc".data ∧
    path.Clean "/../abc".data = "/abc".data ∧
    path.Clean "".data = ".".data := by
  decide

/-- The model of `url.JoinPath` on known inputs. -/
theorem JoinPath_known :
    url.JoinPath "https://example.com".data ["/foo/bar".data] =
      .ok "https://example.com/foo/bar".data ∧
    url.JoinPath "https://example.com/".data ["/foo/bar/".data] =
      .ok "https://example.com/foo/bar/".data ∧
    url.JoinPath "https://example.com/a b".data ["../c".data] =
      .ok "https://example.com/c".data ∧
    url.JoinPath "HTTPS://u:p@example.com:80/a%20b?x=1#f".data ["c d".data] =
      .ok "https://u:p@example.com:80/a%20b/c%20d?x=1#f".data ∧
    url.JoinPath "https://example.com".data ["".data] = .ok "https://example.com".data := by
  decide

/-- The model of `Values.Encode` on the params of the test `TestBuilder_Build`, and the
canonical form of header names. -/
theorem Encode_known :
    url.Values.Encode
        [("param3", ["value1", "value2"]), ("param1", ["param1"]), ("param2", ["100"])] =
      "param1=param1&param2=100&param3=value1&param3=value2" ∧
    url.Values.Encode [("a b", ["x&y"])] = "a+b=x%26y" ∧
    textproto.CanonicalMIMEHeaderKey "accept-encoding" = "Accept-Encoding" ∧
    textproto.CanonicalMIMEHeaderKey "CONTENT-type" = "Content-Type" ∧
    textproto.CanonicalMIMEHeaderKey "a b" = "a b" := by
  decide

/-! ## Heap and map lemmas -/

theorem Heap.read_write_same (σ : Heap) (a : Nat) (h : http.Header) (hv : σ.valid a) :
    (σ.write a h).read a = h := by
  unfold Heap.valid at hv
  simp [Heap.read, Heap.write, List.getD_eq_getElem?_getD, List.getElem?_set, hv]

theorem Heap.read_write_ne (σ : Heap) (a b : Nat) (h : http.Header) (hne : a ≠ b) :
    (σ.write a h).read b = σ.read b := by
  simp [Heap.read, Heap.write, List.getD_eq_getElem?_getD, List.getElem?_set, hne]

theorem Heap.read_alloc_old (σ : Heap) (a : Nat) (h : http.Header) (hv : σ.valid a) :
    (σ.alloc h).2.read a = σ.read a := by
  unfold Heap.valid at hv
  simp [Heap.read, Heap.alloc, List.getD_eq_getElem?_getD, List.getElem?_append_left, hv]

theorem Heap.read_alloc_new (σ : Heap) (h : http.Header) :
    (σ.alloc h).2.read (σ.alloc h).1 = h := by
  simp [Heap.read, Heap.alloc, List.getD_eq_getElem?_getD]

theorem Heap.write_read_self (σ : Heap) (a : Nat) : σ.write a (σ.read a) = σ := by
  cases σ with
  | mk maps =>
    simp only [Heap.write, Heap.read, Heap.mk.injEq]
    apply List.ext_getElem?
    intro i
    by_cases hi : a = i
    · subst hi
      by_cases hlt : a < maps.length
      · simp [List.getElem?_set, hlt, List.getD_eq_getElem?_getD]
      · simp [List.getElem?_set, hlt, List.getElem?_eq_none (Nat.le_of_not_lt hlt)]
    · simp [List.getElem?_set, hi]

theorem Heap.write_write (σ : Heap) (a : Nat) (h1 h2 : http.Header) :
    (σ.write a h1).write a h2 = σ.write a h2 := by
  simp [Heap.write, List.set_set]

namespace http.Header

theorem lookup_assign (h : Header) (k k1 : String) (vs : List String) :
    lookup (assign h k vs) k1 = if k = k1 then some vs else lookup h k1 := by
  induction h with
  | nil => simp [assign, lookup]
  | cons e t ih =>
    obtain ⟨k0, vs0⟩ := e
    by_cases h0 : k0 = k
    · subst h0
      by_cases h1 : k0 = k1 <;> simp [assign, lookup, h1]
    · by_cases h1 : k0 = k1
      · subst h1
        have : ¬ k = k0 := fun h => h0 h.symm
        simp [assign, lookup, h0, this]
      · simp [assign, lookup, h0, h1, ih]

theorem get_assign (h : Header) (k k1 : String) (vs : List String) :
    get (assign h k vs) k1 = if k = k1 then vs else get h k1 := by
  unfold get
  rw [lookup_assign]
  split <;> simp

theorem get_Add (h : Header) (key value k : String) :
    get (Add h key value) k =
      if textproto.CanonicalMIMEHeaderKey key = k then get h k ++ [value] else get h k := by
  unfold Add
  simp only [get_assign]
  split
  · next heq => subst heq; rfl
  · rfl

theorem lookup_Add_ne (h : Header) (key value k : String)
    (hne : textproto.CanonicalMIMEHeaderKey key ≠ k) :
    lookup (Add h key value) k = lookup h k := by
  unfold Add
  simp [lookup_assign, hne]

end http.Header

/-! ## Append merge -/

theorem get_foldl_Add (vs : List String) (dst : http.Header) (name k : String) :
    http.Header.get (vs.foldl (fun d v => http.Header.Add d name v) dst) k =
      if textproto.CanonicalMIMEHeaderKey name = k then http.Header.get dst k ++ vs
      else http.Header.get dst k := by
  induction vs generalizing dst with
  | nil => simp
  | cons v t ih =>
    simp only [List.foldl_cons, ih, http.Header.get_Add]
    split <;> simp

theorem lookup_foldl_Add (vs : List String) (dst : http.Header) (name k : String)
    (h : textproto.CanonicalMIMEHeaderKey name = k → vs = []) :
    http.Header.lookup (vs.foldl (fun d v => http.Header.Add d name v) dst) k =
      http.Header.lookup dst k := by
  by_cases hk : textproto.CanonicalMIMEHeaderKey name = k
  · simp [h hk]
  · induction vs generalizing dst with
    | nil => simp
    | cons v t ih =>
      simp only [List.foldl_cons]
      rw [ih _ (fun hh => absurd hh hk), http.Header.lookup_Add_ne _ _ _ _ hk]

theorem get_foldl_entries (s : http.Header) (dst : http.Header) (k : String) :
    http.Header.get
        (s.foldl (fun d e => e.2.foldl (fun d v => http.Header.Add d e.1 v) d) dst) k =
      http.Header.get dst k ++
        ((s.filter fun e => textproto.CanonicalMIMEHeaderKey e.1 = k).map (·.2)).flatten := by
  induction s generalizing dst with
  | nil => simp
  | cons e t ih =>
    simp only [List.foldl_cons, ih, get_foldl_Add]
    by_cases hk : textproto.CanonicalMIMEHeaderKey e.1 = k
    · simp [List.filter_cons, hk]
    · simp [List.filter_cons, hk]

theorem lookup_foldl_entries (s : http.Header) (dst : http.Header) (k : String)
    (h : ∀ e ∈ s, textproto.CanonicalMIMEHeaderKey e.1 = k → e.2 = []) :
    http.Header.lookup
        (s.foldl (fun d e => e.2.foldl (fun d v => http.Header.Add d e.1 v) d) dst) k =
      http.Header.lookup dst k := by
  induction s generalizing dst with
  | nil => simp
  | cons e t ih =>
    simp only [List.foldl_cons]
    rw [ih _ (fun e1 he1 => h e1 (List.mem_cons_of_mem _ he1)),
      lookup_foldl_Add _ _ _ _ (h e (List.mem_cons_self _ _))]

theorem sourceValues_nil (k : String) : sourceValues [] k = [] := by
  simp [sourceValues]

theorem sourceValues_cons (s : http.Header) (src : List http.Header) (k : String) :
    sourceValues (s :: src) k =
      ((s.filter fun e => textproto.CanonicalMIMEHeaderKey e.1 = k).map (·.2)).flatten ++
        sourceValues src k := by
  simp [sourceValues]

theorem get_mergeHeaders (dst : http.Header) (src : List http.Header) (k : String) :
    http.Header.get (mergeHeaders dst src) k = http.Header.get dst k ++ sourceValues src k := by
  unfold mergeHeaders
  induction src generalizing dst with
  | nil => simp [sourceValues_nil]
  | cons s t ih =>
    simp only [List.foldl_cons]
    rw [ih, get_foldl_entries, sourceValues_cons, List.append_assoc]

theorem lookup_mergeHeaders (dst : http.Header) (src : List http.Header) (k : String)
    (h : ∀ s ∈ src, ∀ e ∈ s, textproto.CanonicalMIMEHeaderKey e.1 = k → e.2 = []) :
    http.Header.lookup (mergeHeaders dst src) k = http.Header.lookup dst k := by
  unfold mergeHeaders
  induction src generalizing dst with
  | nil => simp
  | cons s t ih =>
    simp only [List.foldl_cons]
    rw [ih _ (fun s1 hs1 => h s1 (List.mem_cons_of_mem _ hs1)),
      lookup_foldl_entries _ _ _ (h s (List.mem_cons_self _ _))]

theorem mergeHeaders_append (dst : http.Header) (A B : List http.Header) :
    mergeHeaders (mergeHeaders dst A) B = mergeHeaders dst (A ++ B) := by
  simp [mergeHeaders, List.foldl_append]

/-- C10. Append merge used by `WithHeaders`: after `mergeHeaders(dst, src...)` every key
`k` holds its previous values followed by the values that the sources hold under a
name canonicalising to `k`, source after source and each in its order; a key for which
no source holds a value keeps its entry (or its absence) as it was.  Hence
`WithHeaders(A...)` followed by `WithHeaders(B...)` leaves the same builder and heap as
one `WithHeaders(A..., B...)`, and `WithHeaders()` changes nothing. -/
theorem C10_mergeHeaders_appends (dst : http.Header) (src A B : List http.Header)
    (σ : Heap) (b : Builder) :
    (∀ k, http.Header.get (mergeHeaders dst src) k =
        http.Header.get dst k ++ sourceValues src k) ∧
    (∀ k, (∀ s ∈ src, ∀ e ∈ s, textproto.CanonicalMIMEHeaderKey e.1 = k → e.2 = []) →
        http.Header.lookup (mergeHeaders dst src) k = http.Header.lookup dst k) ∧
    (∀ k, http.Header.get ((b.WithHeaders σ src).2.read b.header) k =
        if σ.valid b.header then http.Header.get (σ.read b.header) k ++ sourceValues src k
        else []) ∧
    Builder.WithHeaders (b.WithHeaders σ A).2 (b.WithHeaders σ A).1 B =
      b.WithHeaders σ (A ++ B) ∧
    b.WithHeaders σ [] = (b, σ) := by
  refine ⟨fun k => get_mergeHeaders dst src k, fun k h => lookup_mergeHeaders dst src k h,
    ?_, ?_, ?_⟩
  · intro k
    by_cases hv : σ.valid b.header
    · simp only [Builder.WithHeaders, hv, if_true]
      rw [Heap.read_write_same _ _ _ hv, get_mergeHeaders]
    · simp only [Builder.WithHeaders, hv, if_false]
      unfold Heap.valid at hv
      simp [Heap.read, Heap.write, List.getD_eq_getElem?_getD,
        List.set_eq_of_length_le (Nat.le_of_not_lt hv),
        List.getElem?_eq_none (Nat.le_of_not_lt hv), http.Header.get, http.Header.lookup]
  · by_cases hv : σ.valid b.header
    · simp only [Builder.WithHeaders, Heap.read_write_same _ _ _ hv, mergeHeaders_append,
        Heap.write_write]
    · unfold Heap.valid at hv
      have hw : ∀ h, σ.write b.header h = σ := by
        intro h
        cases σ with
        | mk maps =>
          simp only [Heap.write, Heap.mk.injEq]
          exact List.set_eq_of_length_le (Nat.le_of_not_lt hv)
      simp only [Builder.WithHeaders, hw]
  · simp only [Builder.WithHeaders, mergeHeaders, List.foldl_nil, Heap.write_read_self]

/-! ## Mutators -/

/-- C8. Mutator frame: each of `WithMethod`, `WithPath`, `WithBody`, `WithBodyMarshaler`
and `WithParams` returns a builder whose own field is the argument and whose seven
other fields are those of the receiver (the receiver is a value and is not changed);
mutators of different fields commute and of two calls of the same mutator only the
last counts. -/
theorem C8_mutator_frame (b : Builder) (m m1 : String) (p p1 : String) (x x1 : Any)
    (bm bm1 : BodyMarshaler) (q q1 : Any) :
    ((b.WithMethod m).method = m ∧ (b.WithMethod m).path = b.path ∧
      (b.WithMethod m).baseURL = b.baseURL ∧ (b.WithMethod m).body = b.body ∧
      (b.WithMethod m).header = b.header ∧ (b.WithMethod m).bodyMarshaler = b.bodyMarshaler ∧
      (b.WithMethod m).urlValuesMarshaler = b.urlValuesMarshaler ∧
      (b.WithMethod m).params = b.params) ∧
    ((b.WithPath p).path = p ∧ (b.WithPath p).method = b.method ∧
      (b.WithPath p).baseURL = b.baseURL ∧ (b.WithPath p).body = b.body ∧
      (b.WithPath p).header = b.header ∧ (b.WithPath p).bodyMarshaler = b.bodyMarshaler ∧
      (b.WithPath p).urlValuesMarshaler = b.urlValuesMarshaler ∧
      (b.WithPath p).params = b.params) ∧
    ((b.WithBody x).body = x ∧ (b.WithBody x).method = b.method ∧
      (b.WithBody x).path = b.path ∧ (b.WithBody x).baseURL = b.baseURL ∧
      (b.WithBody x).header = b.header ∧ (b.WithBody x).bodyMarshaler = b.bodyMarshaler ∧
      (b.WithBody x).urlValuesMarshaler = b.urlValuesMarshaler ∧
      (b.WithBody x).params = b.params) ∧
    ((b.WithBodyMarshaler bm).bodyMarshaler = bm ∧ (b.WithBodyMarshaler bm).method = b.method ∧
      (b.WithBodyMarshaler bm).path = b.path ∧ (b.WithBodyMarshaler bm).baseURL = b.baseURL ∧
      (b.WithBodyMarshaler bm).body = b.body ∧ (b.WithBodyMarshaler bm).header = b.header ∧
      (b.WithBodyMarshaler bm).urlValuesMarshaler = b.urlValuesMarshaler ∧
      (b.WithBodyMarshaler bm).params = b.params) ∧
    ((b.WithParams q).params = q ∧ (b.WithParams q).method = b.method ∧
      (b.WithParams q).path = b.path ∧ (b.WithParams q).baseURL = b.baseURL ∧
      (b.WithParams q).body = b.body ∧ (b.WithParams q).header = b.header ∧
      (b.WithParams q).bodyMarshaler = b.bodyMarshaler ∧
      (b.WithParams q).urlValuesMarshaler = b.urlValuesMarshaler) ∧
    ((b.WithMethod m).WithPath p = (b.WithPath p).WithMethod m ∧
      (b.WithMethod m).WithBody x = (b.WithBody x).WithMethod m ∧
      (b.WithMethod m).WithBodyMarshaler bm = (b.WithBodyMarshaler bm).WithMethod m ∧
      (b.WithMethod m).WithParams q = (b.WithParams q).WithMethod m ∧
      (b.WithPath p).WithBody x = (b.WithBody x).WithPath p ∧
      (b.WithPath p).WithBodyMarshaler bm = (b.WithBodyMarshaler bm).WithPath p ∧
      (b.WithPath p).WithParams q = (b.WithParams q).WithPath p ∧
      (b.WithBody x).WithBodyMarshaler bm = (b.WithBodyMarshaler bm).WithBody x ∧
      (b.WithBody x).WithParams q = (b.WithParams q).WithBody x ∧
      (b.WithBodyMarshaler bm).WithParams q = (b.WithParams q).WithBodyMarshaler bm) ∧
    ((b.WithMethod m).WithMethod m1 = b.WithMethod m1 ∧
      (b.WithPath p).WithPath p1 = b.WithPath p1 ∧
      (b.WithBody x).WithBody x1 = b.WithBody x1 ∧
      (b.WithBodyMarshaler bm).WithBodyMarshaler bm1 = b.WithBodyMarshaler bm1 ∧
      (b.WithParams q).WithParams q1 = b.WithParams q1) := by
  refine ⟨⟨rfl, rfl, rfl, rfl, rfl, rfl, rfl, rfl⟩, ⟨rfl, rfl, rfl, rfl, rfl, rfl, rfl, rfl⟩,
    ⟨rfl, rfl, rfl, rfl, rfl, rfl, rfl, rfl⟩, ⟨rfl, rfl, rfl, rfl, rfl, rfl, rfl, rfl⟩,
    ⟨rfl, rfl, rfl, rfl, rfl, rfl, rfl, rfl⟩,
    ⟨rfl, rfl, rfl, rfl, rfl, rfl, rfl, rfl, rfl, rfl⟩, ⟨rfl, rfl, rfl, rfl, rfl⟩⟩

/-! ## Build: the stages and their errors -/

/-- C3. Params error propagation: when the body stage succeeds and the params marshaler
returns the error `e` for the stored params, `Build` returns no request and the error
that wraps `e` under the tag "marshal url values" (its message is that tag, a colon
and the message of `e`), and the heap is left as it was; method, path, base URL and
headers play no part. -/
theorem C3_params_error (σ : Heap) (b : Builder) (ctx : Option http.Context) (body : Reader)
    (e : GoError) (hbody : b.getBodyReader = .ok body)
    (hparams : b.urlValuesMarshaler b.params = .error e) :
    b.Build σ ctx = ((none, some (.wrap "marshal url values" e)), σ) ∧
    (GoError.wrap "marshal url values" e).Error = "marshal url values: " ++ e.Error ∧
    (GoError.wrap "marshal url values" e).Unwrap = some e := by
  refine ⟨?_, rfl, rfl⟩
  simp only [Builder.Build, hbody, hparams]

/-- Params error propagation at a builder whose params marshaler fails with "boom". -/
theorem C3_params_error_witness :
    paramsFailBuilder.Build Heap.empty (some http.Background) =
        ((none, some (.wrap "marshal url values" (.leaf "boom"))), Heap.empty) ∧
    (GoError.wrap "marshal url values" (.leaf "boom")).Error =
        "marshal url values: " ++ (GoError.leaf "boom").Error ∧
    (GoError.wrap "marshal url values" (.leaf "boom")).Unwrap = some (.leaf "boom") :=
  C3_params_error Heap.empty paramsFailBuilder (some http.Background) .noBody (.leaf "boom")
    rfl rfl

/-- C4. Fail-fast stage order of `Build`: the call returns a request and no error, or an
error and no request; the error is that of the first failing stage in the order body,
params, URL, request construction, wrapped under the tag of that stage; and a builder
with a structured body whose body marshaler fails with `e1` while its params marshaler
would fail with `e2` gets the error wrapping `e1` under "marshal" (under the tag
"getBodyReader" of the body stage), not the one of `e2`. -/
theorem C4_fail_fast (σ : Heap) (b : Builder) (ctx : Option http.Context) :
    (((b.Build σ ctx).1.1.isSome ∧ (b.Build σ ctx).1.2 = none) ∨
      ((b.Build σ ctx).1.1 = none ∧ (b.Build σ ctx).1.2.isSome)) ∧
    (∀ e, b.getBodyReader = .error e →
      (b.Build σ ctx).1 = (none, some (.wrap "getBodyReader" e))) ∧
    (∀ body e, b.getBodyReader = .ok body → b.urlValuesMarshaler b.params = .error e →
      (b.Build σ ctx).1 = (none, some (.wrap "marshal url values" e))) ∧
    (∀ body vals e, b.getBodyReader = .ok body → b.urlValuesMarshaler b.params = .ok vals →
      buildURL b.baseURL b.path (url.Values.Encode vals) = .error e →
      (b.Build σ ctx).1 = (none, some (.wrap "buildURL" e))) ∧
    (∀ body vals rawURL e, b.getBodyReader = .ok body →
      b.urlValuesMarshaler b.params = .ok vals →
      buildURL b.baseURL b.path (url.Values.Encode vals) = .ok rawURL →
      (http.NewRequestWithContext σ ctx b.method rawURL body).1 = .error e →
      (b.Build σ ctx).1 = (none, some (.wrap "newRequestWithContext" e))) ∧
    (∀ body vals rawURL req, b.getBodyReader = .ok body →
      b.urlValuesMarshaler b.params = .ok vals →
      buildURL b.baseURL b.path (url.Values.Encode vals) = .ok rawURL →
      (http.NewRequestWithContext σ ctx b.method rawURL body).1 = .ok req →
      (b.Build σ ctx).1 = (some req, none)) ∧
    (∀ v e1 e2, b.body = .other v → b.bodyMarshaler b.body = .error e1 →
      b.urlValuesMarshaler b.params = .error e2 →
      b.Build σ ctx = ((none, some (.wrap "getBodyReader" (.wrap "marshal" e1))), σ) ∧
      (GoError.wrap "getBodyReader" (.wrap "marshal" e1)).Is (.wrap "marshal" e1) = true ∧
      (GoError.wrap "getBodyReader" (.wrap "marshal" e1)).Is e1 = true ∧
      (GoError.wrap "getBodyReader" (.wrap "marshal" e1)).Error =
        "getBodyReader: marshal: " ++ e1.Error ∧
      GoError.wrap "getBodyReader" (.wrap "marshal" e1) ≠ .wrap "marshal url values" e2) := by
  refine ⟨?_, ?_, ?_, ?_, ?_, ?_, ?_⟩
  · rcases h1 : b.getBodyReader with e | body
    · simp [Builder.Build, h1]
    · rcases h2 : b.urlValuesMarshaler b.params with e | vals
      · simp [Builder.Build, h1, h2]
      · rcases h3 : buildURL b.baseURL b.path (url.Values.Encode vals) with e | rawURL
        · simp [Builder.Build, h1, h2, h3]
        · rcases h4 : http.NewRequestWithContext σ ctx b.method rawURL body with ⟨r, σ1⟩
          cases r <;> simp [Builder.Build, h1, h2, h3, h4]
  · intro e h
    simp only [Builder.Build, h]
  · intro body e h1 h2
    simp only [Builder.Build, h1, h2]
  · intro body vals e h1 h2 h3
    simp only [Builder.Build, h1, h2, h3]
  · intro body vals rawURL e h1 h2 h3 h4
    simp only [Builder.Build, h1, h2, h3]
    rcases hreq : http.NewRequestWithContext σ ctx b.method rawURL body with ⟨r, σ1⟩
    rw [hreq] at h4
    simp only at h4
    subst h4
    rfl
  · intro body vals rawURL req h1 h2 h3 h4
    simp only [Builder.Build, h1, h2, h3]
    rcases hreq : http.NewRequestWithContext σ ctx b.method rawURL body with ⟨r, σ1⟩
    rw [hreq] at h4
    simp only at h4
    subst h4
    rfl
  · intro v e1 e2 hb hm _
    have hg : b.getBodyReader = .error (.wrap "marshal" e1) := by
      unfold Builder.getBodyReader
      rw [hb] at hm ⊢
      simp only [hm]
    refine ⟨?_, ?_, ?_, ?_, ?_⟩
    · simp only [Builder.Build, hg]
    · simp [GoError.Is]
    · cases e1 <;> simp [GoError.Is]
    · simp only [GoError.Error]
      rw [← String.append_assoc]
      rfl
    · intro h
      injection h with h1 _
      exact absurd h1 (by decide)

/-- Fail-fast order at a builder whose two marshalers both fail: the error is the one of
the body marshaler. -/
theorem C4_fail_fast_witness :
    bothFailBuilder.Build Heap.empty (some http.Background) =
      ((none, some (.wrap "getBodyReader" (.wrap "marshal" (.leaf "e1")))), Heap.empty) :=
  ((C4_fail_fast Heap.empty bothFailBuilder (some http.Background)).2.2.2.2.2.2
    ⟨"Body", "x"⟩ (.leaf "e1") (.leaf "e2") rfl rfl rfl).1

/-! ## Build: the body -/

theorem content_requestBody (body : Reader) :
    (if http.knownLen body = some 0 then Reader.noBody
      else if http.isReadCloser body then body else .nopCloser body).content = body.content := by
  split
  · next h =>
    cases body with
    | bytesBuffer b =>
      simp only [http.knownLen, Option.some.injEq, List.length_eq_zero] at h
      simp [Reader.content, h]
    | bytesReader b =>
      simp only [http.knownLen, Option.some.injEq, List.length_eq_zero] at h
      simp [Reader.content, h]
    | stringsReader s =>
      simp only [http.knownLen, Option.some.injEq, List.length_eq_zero] at h
      simp [Reader.content, bytesOf, h]
    | noBody => rfl
    | stream n d c => simp [http.knownLen] at h
    | nopCloser r => simp [http.knownLen] at h
  · split <;> rfl

theorem NewRequestWithContext_ok (σ σ1 : Heap) (ctx : Option http.Context)
    (method rawURL : String) (body : Reader) (req : http.Request)
    (h : http.NewRequestWithContext σ ctx method rawURL body = (.ok req, σ1)) :
    ∃ c u, ctx = some c ∧ url.Parse rawURL.data = .ok u ∧ σ1 = (σ.alloc []).2 ∧
      req = { ctx := c, Method := if method = "" then "GET" else method,
              URL := { u with Host := http.removeEmptyPort u.Host },
              Header := σ.maps.length,
              Body := if http.knownLen body = some 0 then .noBody
                else if http.isReadCloser body then body else .nopCloser body,
              ContentLength := (http.knownLen body).getD 0,
              Host := String.mk (http.removeEmptyPort u.Host) } := by
  unfold http.NewRequestWithContext at h
  simp only [] at h
  generalize (if method = "" then "GET" else method) = m1 at h ⊢
  by_cases hm : http.validMethod m1 = true
  · simp only [hm, Bool.not_true, Bool.false_eq_true, if_false] at h
    cases ctx with
    | none => simp at h
    | some c =>
      simp only at h
      rcases hp : url.Parse rawURL.data with e | u
      · simp [hp] at h
      · simp only [hp, Prod.mk.injEq, Except.ok.injEq] at h
        exact ⟨c, u, rfl, rfl, h.2.symm, h.1.symm⟩
  · simp [hm] at h

theorem NewRequestWithContext_body (σ σ1 : Heap) (ctx : Option http.Context)
    (method rawURL : String) (body : Reader) (req : http.Request)
    (h : http.NewRequestWithContext σ ctx method rawURL body = (.ok req, σ1)) :
    req.Body.content = body.content := by
  obtain ⟨c, u, _, _, _, hreq⟩ := NewRequestWithContext_ok _ _ _ _ _ _ _ h
  rw [hreq]
  exact content_requestBody body

theorem Build_body (σ : Heap) (b : Builder) (ctx : Option http.Context) (body : Reader)
    (req : http.Request) (hbody : b.getBodyReader = .ok body)
    (h : (b.Build σ ctx).1.1 = some req) : req.Body.content = body.content := by
  unfold Builder.Build at h
  simp only [hbody] at h
  split at h
  · simp at h
  · split at h
    · simp at h
    · split at h
      · simp at h
      · next hreq =>
        simp only [Option.some.injEq] at h
        subst h
        exact NewRequestWithContext_body _ _ _ _ _ _ _ hreq

/-- C2. Body-kind dispatch: with a body of bytes `bs`, of text `s`, `nil` or a stream `r`,
`getBodyReader` succeeds with a stream over exactly `bs`, over the bytes of `s`, with
the empty body and with `r` itself, whatever the body marshaler `m` is; `Build` gives
the same result under any two body marshalers (so `m` is never consulted), never fails
at the body stage, and a request it returns carries a body with exactly those
bytes. -/
theorem C2_body_dispatch (σ : Heap) (b : Builder) (ctx : Option http.Context)
    (bs : List UInt8) (s : String) (r : Reader) (m m1 : BodyMarshaler) :
    (((b.WithBody (.bytes bs)).WithBodyMarshaler m).getBodyReader = .ok (.bytesReader bs) ∧
      (Reader.bytesReader bs).content = bs) ∧
    (((b.WithBody (.string s)).WithBodyMarshaler m).getBodyReader = .ok (.stringsReader s) ∧
      (Reader.stringsReader s).content = bytesOf s) ∧
    (((b.WithBody .nil).WithBodyMarshaler m).getBodyReader = .ok .noBody ∧
      Reader.noBody.content = []) ∧
    ((b.WithBody (.reader r)).WithBodyMarshaler m).getBodyReader = .ok r ∧
    (∀ x, x = .bytes bs ∨ x = .string s ∨ x = .nil ∨ x = .reader r →
      ((b.WithBody x).WithBodyMarshaler m).Build σ ctx =
        ((b.WithBody x).WithBodyMarshaler m1).Build σ ctx) ∧
    (∀ x e, x = .bytes bs ∨ x = .string s ∨ x = .nil ∨ x = .reader r →
      (((b.WithBody x).WithBodyMarshaler m).Build σ ctx).1.2 ≠
        some (.wrap "getBodyReader" e)) ∧
    (∀ req, (((b.WithBody (.bytes bs)).WithBodyMarshaler m).Build σ ctx).1.1 = some req →
      req.Body.content = bs) ∧
    (∀ req, (((b.WithBody (.string s)).WithBodyMarshaler m).Build σ ctx).1.1 = some req →
      req.Body.content = bytesOf s) ∧
    (∀ req, (((b.WithBody .nil).WithBodyMarshaler m).Build σ ctx).1.1 = some req →
      req.Body.content = []) ∧
    (∀ req, (((b.WithBody (.reader r)).WithBodyMarshaler m).Build σ ctx).1.1 = some req →
      req.Body.content = r.content) := by
  refine ⟨⟨rfl, rfl⟩, ⟨rfl, rfl⟩, ⟨rfl, rfl⟩, rfl, ?_, ?_, ?_, ?_, ?_, ?_⟩
  · intro x hx
    rcases hx with h | h | h | h <;> subst h <;> rfl
  · intro x e hx
    have key : ∀ body, ((b.WithBody x).WithBodyMarshaler m).getBodyReader = .ok body →
        (((b.WithBody x).WithBodyMarshaler m).Build σ ctx).1.2 ≠
          some (.wrap "getBodyReader" e) := by
      intro body hb
      rcases h2 : ((b.WithBody x).WithBodyMarshaler m).urlValuesMarshaler
          ((b.WithBody x).WithBodyMarshaler m).params with e2 | vals
      · simp only [Builder.Build, hb, h2]
        intro h
        injection h with h
        injection h with h _
        exact absurd h (by decide)
      · rcases h3 : buildURL ((b.WithBody x).WithBodyMarshaler m).baseURL
            ((b.WithBody x).WithBodyMarshaler m).path (url.Values.Encode vals) with e3 | rawURL
        · simp only [Builder.Build, hb, h2, h3]
          intro h
          injection h with h
          injection h with h _
          exact absurd h (by decide)
        · rcases h4 : http.NewRequestWithContext σ ctx
              ((b.WithBody x).WithBodyMarshaler m).method rawURL body with ⟨rr, σ1⟩
          cases rr with
          | error e4 =>
            simp only [Builder.Build, hb, h2, h3, h4]
            intro h
            injection h with h
            injection h with h _
            exact absurd h (by decide)
          | ok req =>
            simp only [Builder.Build, hb, h2, h3, h4]
            intro h
            exact absurd h (by simp)
    rcases hx with h | h | h | h <;> subst h
    · exact key _ rfl
    · exact key _ rfl
    · exact key _ rfl
    · exact key _ rfl
  · intro req h
    exact Build_body σ ((b.WithBody (.bytes bs)).WithBodyMarshaler m) ctx (.bytesReader bs) req rfl h
  · intro req h
    exact Build_body σ ((b.WithBody (.string s)).WithBodyMarshaler m) ctx (.stringsReader s) req rfl h
  · intro req h
    exact Build_body σ ((b.WithBody .nil).WithBodyMarshaler m) ctx .noBody req rfl h
  · intro req h
    exact Build_body σ ((b.WithBody (.reader r)).WithBodyMarshaler m) ctx r req rfl h

/-- Body dispatch at a builder whose body marshaler always fails: `Build` succeeds and
the body of the request is the bytes 1, 2, 3. -/
theorem C2_body_dispatch_witness :
    (((bytesBodyBuilder.WithBody (.bytes [1, 2, 3])).WithBodyMarshaler
        (failingBodyMarshaler (.leaf "never"))).Build
      (NewBuilder sampleExtern Heap.empty "https://example.com" []).2
      (some http.Background)).1.1 = some bytesBodyRequest ∧
    bytesBodyRequest.Body.content = [1, 2, 3] :=
  ⟨by decide!,
    (C2_body_dispatch (NewBuilder sampleExtern Heap.empty "https://example.com" []).2
      bytesBodyBuilder (some http.Background) [1, 2, 3] "" .noBody
      (failingBodyMarshaler (.leaf "never")) (failingBodyMarshaler (.leaf "never"))).2.2.2.2.2.2.1
      bytesBodyRequest (by decide!)⟩

/-! ## Build: the heap -/

theorem NewRequestWithContext_heap (σ : Heap) (ctx : Option http.Context)
    (method rawURL : String) (body : Reader) :
    http.NewRequestWithContext σ ctx method rawURL body =
      match (http.NewRequestWithContext Heap.empty ctx method rawURL body).1 with
      | .error e => (.error e, σ)
      | .ok req => (.ok { req with Header := σ.maps.length }, (σ.alloc []).2) := by
  unfold http.NewRequestWithContext
  simp only []
  generalize (if method = "" then "GET" else method) = m1
  by_cases hm : http.validMethod m1 = true
  · simp only [hm, Bool.not_true, Bool.false_eq_true, if_false]
    cases ctx with
    | none => rfl
    | some c =>
      simp only
      rcases hp : url.Parse rawURL.data with e | u
      · rfl
      · rfl
  · simp [hm]

theorem Heap.read_alloc_nil (σ : Heap) (a : Nat) : (σ.alloc []).2.read a = σ.read a := by
  simp only [Heap.read, Heap.alloc, List.getD_eq_getElem?_getD]
  rcases Nat.lt_trichotomy a σ.maps.length with h | h | h
  · rw [List.getElem?_append_left h]
  · subst h
    simp
  · rw [List.getElem?_eq_none (by simp; omega), List.getElem?_eq_none (by omega)]

theorem Heap.write_alloc (σ : Heap) (h0 h : http.Header) :
    (σ.alloc h0).2.write σ.maps.length h = ⟨σ.maps ++ [h]⟩ := by
  simp [Heap.write, Heap.alloc]

theorem Heap.read_length (σ : Heap) : σ.read σ.maps.length = [] := by
  simp [Heap.read, List.getD_eq_getElem?_getD]

theorem Heap.read_push_new (maps : List http.Header) (h : http.Header) :
    (Heap.mk (maps ++ [h])).read maps.length = h := by
  simp [Heap.read, List.getD_eq_getElem?_getD]

theorem Heap.read_push_old (maps : List http.Header) (h : http.Header) (a : Nat)
    (ha : a < maps.length) : (Heap.mk (maps ++ [h])).read a = (Heap.mk maps).read a := by
  simp [Heap.read, List.getD_eq_getElem?_getD, List.getElem?_append_left ha]

/-- The outcome of `Build` in terms of the stages run on the empty heap: an error leaves
the heap as it was, a success appends the header map of the new request. -/
theorem Build_heap (σ : Heap) (b : Builder) (ctx : Option http.Context) :
    b.Build σ ctx =
      match (b.Build Heap.empty ctx).1 with
      | (some req, _) =>
        ((some { req with Header := σ.maps.length }, none),
          ⟨σ.maps ++ [replaceHeaders [] [σ.read b.header]]⟩)
      | (none, err) => ((none, err), σ) := by
  rcases h1 : b.getBodyReader with e | body
  · simp only [Builder.Build, h1]
  · rcases h2 : b.urlValuesMarshaler b.params with e | vals
    · simp only [Builder.Build, h1, h2]
    · rcases h3 : buildURL b.baseURL b.path (url.Values.Encode vals) with e | rawURL
      · simp only [Builder.Build, h1, h2, h3]
      · simp only [Builder.Build, h1, h2, h3]
        rw [NewRequestWithContext_heap σ, NewRequestWithContext_heap Heap.empty]
        rcases h4 : (http.NewRequestWithContext Heap.empty ctx b.method rawURL body).1
          with e | req
        · simp only
        · simp only [Heap.read_alloc_nil, Heap.write_alloc, Heap.read_length]

/-- C9 (amended). Build idempotence: two calls of `Build` on the same builder, the second
on the heap left by the first, leave the header map of the builder as it was, return the
same error (or both none), and when they return requests these have the same method,
URL, length, host and header content, the headers of the first request being untouched
by the second call.  When the body of the builder is not a stream of the caller, the two
requests have streams of their own and reading the first and then the second gives the
same bytes twice; when it is a stream `r` of the caller, both requests carry that one
stream, so reading the first gives the bytes of `r` and reading the second gives
nothing.  (The marshalers are functions, hence deterministic; the fields of the builder
are values and cannot be changed by the call.) -/
theorem C9_build_idempotent (σ σ1 σ2 : Heap) (b : Builder) (ctx : Option http.Context)
    (res1 res2 : Option http.Request × Option GoError) (hv : σ.valid b.header)
    (h1 : b.Build σ ctx = (res1, σ1)) (h2 : b.Build σ1 ctx = (res2, σ2)) :
    σ1.read b.header = σ.read b.header ∧ σ2.read b.header = σ.read b.header ∧
    res2.2 = res1.2 ∧ res2.1.isSome = res1.1.isSome ∧
    (∀ q1 q2, res1.1 = some q1 → res2.1 = some q2 →
      q2.Method = q1.Method ∧ q2.URL = q1.URL ∧
      q2.ContentLength = q1.ContentLength ∧ q2.Host = q1.Host ∧
      σ2.read q2.Header = σ1.read q1.Header ∧ σ2.read q1.Header = σ1.read q1.Header ∧
      ((∀ r, b.body ≠ .reader r) →
        b.bodyObject q2 ≠ b.bodyObject q1 ∧
        (readAll [] (b.bodyObject q1) q1.Body).1 = q1.Body.content ∧
        (readAll (readAll [] (b.bodyObject q1) q1.Body).2 (b.bodyObject q2) q2.Body).1 =
          q1.Body.content) ∧
      (∀ r, b.body = .reader r →
        b.bodyObject q2 = b.bodyObject q1 ∧
        (readAll [] (b.bodyObject q1) q1.Body).1 = r.content ∧
        (readAll (readAll [] (b.bodyObject q1) q1.Body).2 (b.bodyObject q2) q2.Body).1 =
          [])) := by
  have hcontent : ∀ r q1, b.body = .reader r → res1.1 = some q1 →
      q1.Body.content = r.content := by
    intro r q1 hr hq1
    have hg : b.getBodyReader = .ok r := by
      unfold Builder.getBodyReader
      rw [hr]
    exact Build_body σ b ctx r q1 hg (by rw [h1]; exact hq1)
  rw [Build_heap] at h1 h2
  unfold Heap.valid at hv
  rcases h0 : (b.Build Heap.empty ctx).1 with ⟨r, err⟩
  rw [h0] at h1 h2
  cases r with
  | none =>
    simp only [Prod.mk.injEq] at h1
    obtain ⟨hr1, hs1⟩ := h1
    subst hs1
    simp only [Prod.mk.injEq] at h2
    obtain ⟨hr2, hs2⟩ := h2
    subst hs2 hr1 hr2
    simp
  | some req =>
    simp only [Prod.mk.injEq] at h1
    obtain ⟨hr1, hs1⟩ := h1
    subst hs1
    simp only [Prod.mk.injEq] at h2
    obtain ⟨hr2, hs2⟩ := h2
    subst hs2 hr1 hr2
    have e1 : (Heap.mk (σ.maps ++ [replaceHeaders [] [σ.read b.header]])).read b.header =
        σ.read b.header := Heap.read_push_old _ _ _ hv
    have hlen : (σ.maps ++ [replaceHeaders [] [σ.read b.header]]).length =
        σ.maps.length + 1 := by simp
    refine ⟨e1, ?_, rfl, rfl, ?_⟩
    · rw [Heap.read_push_old _ _ _ (by rw [hlen]; omega), e1]
    · intro q1 q2 hq1 hq2
      have hc := fun r hr => hcontent r q1 hr hq1
      simp only [Option.some.injEq] at hq1 hq2
      subst hq1 hq2
      refine ⟨rfl, rfl, rfl, rfl, ?_, ?_, ?_, ?_⟩
      · simp only [e1]
        rw [Heap.read_push_new, Heap.read_push_new]
      · simp only
        rw [Heap.read_push_old _ _ _ (by rw [hlen]; omega)]
      · intro hnr
        have hobj : ∀ q : http.Request, b.bodyObject q = .made q.Header := by
          intro q
          unfold Builder.bodyObject
          cases hb : b.body with
          | reader r => exact absurd hb (hnr r)
          | nil => rfl
          | bytes x => rfl
          | string x => rfl
          | other x => rfl
        have hne : StreamObject.made (σ.maps.length + 1) ≠ .made σ.maps.length := by
          intro h
          injection h with h
          omega
        simp only [hobj, hlen, readAll, List.not_mem_nil, if_false, List.mem_singleton,
          if_neg hne, ne_eq, hne, not_false_eq_true, and_self]
      · intro r hr
        have hobj : ∀ q : http.Request, b.bodyObject q = .caller r := by
          intro q
          unfold Builder.bodyObject
          rw [hr]
        simp only [hobj, readAll, List.not_mem_nil, if_false, List.mem_singleton, if_true,
          true_and, and_true]
        exact hc r hr

/-- Build idempotence at a builder with two headers, a path and a text body: the first
call succeeds, reading the two bodies gives the bytes of "abc" twice, the header map of
the builder is left as it was, and the second call returns the same error value
(none). -/
theorem C9_build_idempotent_witness :
    (twiceBuilder.1.Build twiceBuilder.2 (some http.Background)).1.2 = none ∧
    buildTwiceAndRead twiceBuilder.1 twiceBuilder.2 (some http.Background) =
      some ([97, 98, 99], [97, 98, 99]) ∧
    (twiceBuilder.1.Build twiceBuilder.2 (some http.Background)).2.read twiceBuilder.1.header =
      twiceBuilder.2.read twiceBuilder.1.header ∧
    (twiceBuilder.1.Build (twiceBuilder.1.Build twiceBuilder.2 (some http.Background)).2
      (some http.Background)).1.2 =
      (twiceBuilder.1.Build twiceBuilder.2 (some http.Background)).1.2 :=
  ⟨by decide!, by decide!,
    (C9_build_idempotent twiceBuilder.2
      (twiceBuilder.1.Build twiceBuilder.2 (some http.Background)).2
      (twiceBuilder.1.Build (twiceBuilder.1.Build twiceBuilder.2 (some http.Background)).2
        (some http.Background)).2
      twiceBuilder.1 (some http.Background)
      (twiceBuilder.1.Build twiceBuilder.2 (some http.Background)).1
      (twiceBuilder.1.Build (twiceBuilder.1.Build twiceBuilder.2 (some http.Background)).2
        (some http.Background)).1
      (by decide!) Prod.mk.eta.symm Prod.mk.eta.symm).1,
    (C9_build_idempotent twiceBuilder.2
      (twiceBuilder.1.Build twiceBuilder.2 (some http.Background)).2
      (twiceBuilder.1.Build (twiceBuilder.1.Build twiceBuilder.2 (some http.Background)).2
        (some http.Background)).2
      twiceBuilder.1 (some http.Background)
      (twiceBuilder.1.Build twiceBuilder.2 (some http.Background)).1
      (twiceBuilder.1.Build (twiceBuilder.1.Build twiceBuilder.2 (some http.Background)).2
        (some http.Background)).1
      (by decide!) Prod.mk.eta.symm Prod.mk.eta.symm).2.2.1⟩

/-- The claim C9 as stated fails on the code: with a stream of the caller as body,
both calls of `Build` succeed and hand the same stream to both requests, so reading the
first body gives the bytes of "abc" and reading the second gives nothing; the two
requests do not have the same body content. -/
theorem C9_stream_body_read_once :
    buildTwiceAndRead streamBuilder.1 streamBuilder.2 (some http.Background) =
      some ([97, 98, 99], []) ∧
    ([97, 98, 99] : List UInt8) ≠ [] := by
  decide!

/-! ## Where the code departs from its contract -/

/-- C1. Header isolation fails on the code: `WithHeaders` merges into the one map that
`b0`, `b1` and `b2` share, so after the two branches all three builders hold both
headers, and `Build` on `b0` (as well as on `b1` and on `b2`) installs both, where the
contract and the test of the repository want the headers of `b0` to stay empty. -/
theorem C1_headers_shared :
    headerIsolationRun =
      [some [],
       some [("Content-Type", ["application/json"]), ("Accept", ["application/json"])],
       some [("Content-Type", ["application/json"]), ("Accept", ["application/json"])],
       some [("Content-Type", ["application/json"]), ("Accept", ["application/json"])],
       some [("Content-Type", ["application/json"]), ("Accept", ["application/json"])],
       some [("Content-Type", ["application/json"]), ("Accept", ["application/json"])],
       some [("Content-Type", ["application/json"]), ("Accept", ["application/json"])]] := by
  decide!

/-- C5. Header installation drops values on the code: `replaceHeaders` calls `dst.Set`
once per value, so of the values of a key only the last one is installed; the builder
that holds `Accept: [a, b]` produces a request with `Accept: [b]`. -/
theorem C5_replaceHeaders_keeps_last :
    replaceHeaders [] [[("Accept", ["a", "b"])]] = [("Accept", ["b"])] ∧
    acceptTwiceRun = ([("Accept", ["a", "b"])], some [("Accept", ["b"])]) := by
  decide!

/-- C6. Base-URL normalization fails on the code: `NewBuilder` trims the suffix " /"
(a space and a slash), so a base URL ending in a slash is stored with its slash; the
other fields take their defaults. -/
theorem C6_trailing_slash_kept (ext : Extern) (σ : Heap) :
    (NewBuilder ext σ "https://example.com/" []).1.baseURL = "https://example.com/" ∧
    (NewBuilder ext σ "https://example.com /" []).1.baseURL = "https://example.com" ∧
    (NewBuilder ext σ "https://example.com/" []).1.method = "GET" ∧
    (NewBuilder ext σ "https://example.com/" []).1.path = "" ∧
    (NewBuilder ext σ "https://example.com/" []).1.body = .reader .noBody ∧
    (NewBuilder ext σ "https://example.com/" []).1.params = .nil ∧
    (NewBuilder ext σ "https://example.com/" []).2.read
      (NewBuilder ext σ "https://example.com/" []).1.header = [] := by
  refine ⟨?_, ?_, rfl, rfl, rfl, rfl, ?_⟩
  · show String.mk (strings.TrimSuffix "https://example.com/".data " /".data) = _
    decide
  · show String.mk (strings.TrimSuffix "https://example.com /".data " /".data) = _
    decide
  · exact Heap.read_alloc_new σ []

/-! ## URL assembly: bytes -/

theorem isPlain_ne (c d : Char) (hc : isPlain c = true) (hd : isPlain d = false) : c ≠ d := by
  intro h
  subst h
  rw [hc] at hd
  exact absurd hd (by decide)

theorem isPlain_toNat (c : Char) (hc : isPlain c = true) : 32 ≤ c.toNat ∧ c.toNat ≠ 127 := by
  simp only [isPlain, url.isAlnum, Bool.or_eq_true, Bool.and_eq_true, decide_eq_true_eq,
    List.mem_cons, List.mem_singleton, List.not_mem_nil, or_false] at hc
  rcases hc with ((h | h) | h) | h | h | h | h
  · omega
  · omega
  · omega
  · subst h; decide
  · subst h; decide
  · subst h; decide
  · subst h; decide

theorem shouldEscape_path_of_isPlain (c : Char) (hc : isPlain c = true) :
    url.shouldEscape c .encodePath = false := by
  unfold url.shouldEscape
  simp only [isPlain, Bool.or_eq_true, decide_eq_true_eq] at hc
  by_cases h1 : url.isAlnum c = true
  · simp [h1]
  · have h2 : c ∈ ['-', '_', '.', '~'] := by
      rcases hc with h | h
      · exact absurd h h1
      · exact h
    simp [h1, h2]

theorem shouldEscape_host_of_isPlain (c : Char) (hc : isPlain c = true) :
    url.shouldEscape c .encodeHost = false := by
  unfold url.shouldEscape
  simp only [isPlain, Bool.or_eq_true, decide_eq_true_eq] at hc
  by_cases h1 : url.isAlnum c = true
  · simp [h1]
  · have h2 : c ∈ ['-', '_', '.', '~'] := by
      rcases hc with h | h
      · exact absurd h h1
      · exact h
    by_cases h3 : c ∈ url.hostDelims
    · simp [h1, h3]
    · simp [h1, h2, h3]

theorem shouldEscape_path_slash : url.shouldEscape '/' .encodePath = false := by decide

theorem isSchemeByte_ne (c d : Char) (hc : isSchemeByte c = true) (hd : isSchemeByte d = false) :
    c ≠ d := by
  intro h
  subst h
  rw [hc] at hd
  exact absurd hd (by decide)

theorem isSchemeByte_toNat (c : Char) (hc : isSchemeByte c = true) :
    32 ≤ c.toNat ∧ c.toNat ≠ 127 := by
  simp only [isSchemeByte, Bool.or_eq_true, Bool.and_eq_true, decide_eq_true_eq,
    List.mem_cons, List.mem_singleton, List.not_mem_nil, or_false] at hc
  rcases hc with ((h | h) | h) | h | h | h
  · omega
  · omega
  · omega
  · subst h; decide
  · subst h; decide
  · subst h; decide

/-! ## URL assembly: the package `strings` -/

theorem CutByte_of_not_mem (s : List Char) (c : Char) (h : c ∉ s) :
    strings.CutByte s c = (s, [], false) := by
  simp [strings.CutByte, strings.IndexByte, h]

theorem IndexByte_of_not_mem (s : List Char) (c : Char) (h : c ∉ s) :
    strings.IndexByte s c = none := by
  simp [strings.IndexByte, h]

theorem IndexByte_append_cons (s t : List Char) (c : Char) (h : c ∉ s) :
    strings.IndexByte (s ++ c :: t) c = some s.length := by
  simp [strings.IndexByte, List.indexOf_append_of_not_mem h]

theorem LastIndexByte_of_not_mem (s : List Char) (c : Char) (h : c ∉ s) :
    strings.LastIndexByte s c = none := by
  simp [strings.LastIndexByte, h]

theorem HasSuffix_singleton_of_not_mem (s : List Char) (c : Char) (h : c ∉ s) :
    strings.HasSuffix s [c] = false := by
  unfold strings.HasSuffix
  rw [Bool.eq_false_iff]
  intro hs
  rw [List.isSuffixOf_iff_suffix] at hs
  exact h (hs.subset (List.mem_singleton_self c))

theorem ToLower_of_lower (s : List Char)
    (h : ∀ c ∈ s, ¬ (65 ≤ c.toNat ∧ c.toNat ≤ 90)) : strings.ToLower s = s := by
  unfold strings.ToLower
  induction s with
  | nil => rfl
  | cons c cs ih =>
    simp only [List.map_cons, List.cons.injEq]
    refine ⟨?_, ih (fun d hd => h d (List.mem_cons_of_mem _ hd))⟩
    rw [if_neg (h c (List.mem_cons_self _ _))]

/-! ## URL assembly: escaping -/

theorem isPathByte_ne (c d : Char) (hc : isPathByte c = true) (hd : isPathByte d = false) :
    c ≠ d := by
  intro h
  subst h
  rw [hc] at hd
  exact absurd hd (by decide)

theorem isPathByte_toNat (c : Char) (hc : isPathByte c = true) :
    32 ≤ c.toNat ∧ c.toNat ≠ 127 := by
  simp only [isPathByte, Bool.or_eq_true, decide_eq_true_eq] at hc
  rcases hc with h | h
  · exact isPlain_toNat c h
  · subst h; decide

theorem shouldEscape_path_of_isPathByte (c : Char) (hc : isPathByte c = true) :
    url.shouldEscape c .encodePath = false := by
  simp only [isPathByte, Bool.or_eq_true, decide_eq_true_eq] at hc
  rcases hc with h | h
  · exact shouldEscape_path_of_isPlain c h
  · subst h; exact shouldEscape_path_slash

theorem isPathByte_of_isPlain (c : Char) (hc : isPlain c = true) : isPathByte c = true := by
  simp [isPathByte, hc]

theorem escape_eq_self (s : List Char) (mode : url.encoding)
    (h : ∀ c ∈ s, url.shouldEscape c mode = false) : url.escape s mode = s := by
  induction s with
  | nil => rfl
  | cons c cs ih =>
    have hc := h c (List.mem_cons_self _ _)
    simp only [url.escape, url.escapeByte, hc, Bool.false_eq_true, if_false,
      List.singleton_append, List.cons.injEq, true_and]
    exact ih (fun d hd => h d (List.mem_cons_of_mem _ hd))

theorem unescapeCheck_ok (mode : url.encoding) (s : List Char)
    (h : ∀ c ∈ s, c ≠ '%' ∧
      ((mode = .encodeHost ∨ mode = .encodeZone) → url.shouldEscape c .encodeHost = false)) :
    url.unescapeCheck mode s = .ok () := by
  induction s with
  | nil => rfl
  | cons c cs ih =>
    have hc := h c (List.mem_cons_self _ _)
    have ih1 := ih (fun d hd => h d (List.mem_cons_of_mem _ hd))
    unfold url.unescapeCheck
    rw [if_neg hc.1]
    by_cases hp : c = '+'
    · rw [if_pos hp]; exact ih1
    · rw [if_neg hp]
      by_cases hm : mode = .encodeHost ∨ mode = .encodeZone
      · simp only [hc.2 hm, Bool.false_eq_true, and_false, if_false]
        exact ih1
      · simp only [hm, false_and, if_false]
        exact ih1

theorem unescapeDecode_eq_self (mode : url.encoding) (s : List Char)
    (h : ∀ c ∈ s, c ≠ '%' ∧ c ≠ '+') : url.unescapeDecode mode s = s := by
  induction s with
  | nil => rfl
  | cons c cs ih =>
    have hc := h c (List.mem_cons_self _ _)
    unfold url.unescapeDecode
    rw [if_neg hc.1, if_neg hc.2, ih (fun d hd => h d (List.mem_cons_of_mem _ hd))]

theorem unescape_path_eq_self (s : List Char) (h : ∀ c ∈ s, isPathByte c = true) :
    url.unescape s .encodePath = .ok s := by
  unfold url.unescape
  rw [unescapeCheck_ok .encodePath s (fun c hc =>
    ⟨isPathByte_ne c '%' (h c hc) (by decide), fun hm => by rcases hm with hm | hm <;> cases hm⟩)]
  simp only
  rw [unescapeDecode_eq_self .encodePath s (fun c hc =>
    ⟨isPathByte_ne c '%' (h c hc) (by decide), isPathByte_ne c '+' (h c hc) (by decide)⟩)]

theorem unescape_host_eq_self (s : List Char) (h : ∀ c ∈ s, isPlain c = true) :
    url.unescape s .encodeHost = .ok s := by
  unfold url.unescape
  rw [unescapeCheck_ok .encodeHost s (fun c hc =>
    ⟨isPlain_ne c '%' (h c hc) (by decide), fun _ => shouldEscape_host_of_isPlain c (h c hc)⟩)]
  simp only
  rw [unescapeDecode_eq_self .encodeHost s (fun c hc =>
    ⟨isPlain_ne c '%' (h c hc) (by decide), isPlain_ne c '+' (h c hc) (by decide)⟩)]

theorem escape_path_eq_self (s : List Char) (h : ∀ c ∈ s, isPathByte c = true) :
    url.escape s .encodePath = s :=
  escape_eq_self s _ (fun c hc => shouldEscape_path_of_isPathByte c (h c hc))

theorem escape_host_eq_self (s : List Char) (h : ∀ c ∈ s, isPlain c = true) :
    url.escape s .encodeHost = s :=
  escape_eq_self s _ (fun c hc => shouldEscape_host_of_isPlain c (h c hc))

theorem setPath_plain (u : url.URL) (p : List Char) (h : ∀ c ∈ p, isPathByte c = true) :
    u.setPath p = .ok { u with Path := p, RawPath := [] } := by
  unfold url.URL.setPath
  rw [unescape_path_eq_self p h]
  simp only [escape_path_eq_self p h, if_true]

theorem EscapedPath_plain (u : url.URL) (h : ∀ c ∈ u.Path, isPathByte c = true)
    (hr : u.RawPath = []) : u.EscapedPath = u.Path := by
  unfold url.URL.EscapedPath
  have hstar : u.Path ≠ ['*'] := by
    intro hs
    have := h '*' (by rw [hs]; exact List.mem_singleton_self _)
    exact absurd this (by decide)
  simp only [hr, ne_eq, not_true_eq_false, decide_False, Bool.false_and]
  rcases url.unescape [] .encodePath with e | p
  · simp only [Bool.false_eq_true, if_false, if_neg hstar]
    exact escape_path_eq_self _ h
  · simp only [Bool.false_eq_true, if_false, if_neg hstar]
    exact escape_path_eq_self _ h

/-! ## URL assembly: parsing -/

theorem parseHost_plain (host : List Char) (h : ∀ c ∈ host, isPlain c = true) :
    url.parseHost host = .ok host := by
  unfold url.parseHost
  have h1 : strings.HasPrefix host ['['] = false := by
    cases host with
    | nil => rfl
    | cons c cs =>
      have hc := isPlain_ne c '[' (h c (List.mem_cons_self _ _)) (by decide)
      simp [strings.HasPrefix, List.isPrefixOf, Ne.symm hc]
  have h2 : ':' ∉ host := fun hm => isPlain_ne ':' ':' (h _ hm) (by decide) rfl
  simp only [h1, Bool.false_eq_true, if_false, LastIndexByte_of_not_mem host ':' h2]
  exact unescape_host_eq_self host h

theorem parseAuthority_plain (host : List Char) (h : ∀ c ∈ host, isPlain c = true) :
    url.parseAuthority host = .ok (none, host) := by
  unfold url.parseAuthority
  have h2 : '@' ∉ host := fun hm => isPlain_ne '@' '@' (h _ hm) (by decide) rfl
  simp only [LastIndexByte_of_not_mem host '@' h2, parseHost_plain host h]

theorem getSchemeLoop_scheme (raw cs rest : List Char) (i : Nat) (hi : 0 < i)
    (h : ∀ c ∈ cs, isSchemeByte c = true) :
    url.getSchemeLoop raw i (cs ++ ':' :: rest) = .ok (raw.take (i + cs.length), rest) := by
  induction cs generalizing i with
  | nil =>
    have h1 : ¬ ((97 ≤ ':'.toNat ∧ ':'.toNat ≤ 122) ∨ (65 ≤ ':'.toNat ∧ ':'.toNat ≤ 90)) := by
      decide
    have h2 : ¬ ((48 ≤ ':'.toNat ∧ ':'.toNat ≤ 57) ∨ ':' = '+' ∨ ':' = '-' ∨ ':' = '.') := by
      decide
    rw [List.nil_append, url.getSchemeLoop]
    simp only [List.length_nil, Nat.add_zero]
    rw [if_neg h1, if_neg h2, if_pos trivial, if_neg (Nat.pos_iff_ne_zero.mp hi)]
  | cons c cs ih =>
    have hc := h c (List.mem_cons_self _ _)
    have ih1 := ih (i + 1) (Nat.succ_pos i) (fun d hd => h d (List.mem_cons_of_mem _ hd))
    have hlen : i + 1 + cs.length = i + (c :: cs).length := by
      simp only [List.length_cons]; omega
    rw [List.cons_append, url.getSchemeLoop]
    by_cases h1 : (97 ≤ c.toNat ∧ c.toNat ≤ 122) ∨ (65 ≤ c.toNat ∧ c.toNat ≤ 90)
    · rw [if_pos h1, ih1, hlen]
    · have h2 : (48 ≤ c.toNat ∧ c.toNat ≤ 57) ∨ c = '+' ∨ c = '-' ∨ c = '.' := by
        simp only [isSchemeByte, Bool.or_eq_true, Bool.and_eq_true, decide_eq_true_eq,
          List.mem_cons, List.mem_singleton, List.not_mem_nil, or_false] at hc
        rcases hc with ((hc | hc) | hc) | hc
        · exact absurd (Or.inl hc) h1
        · exact absurd (Or.inr hc) h1
        · exact Or.inl hc
        · exact Or.inr hc
      rw [if_neg h1, if_pos h2, if_neg (Nat.pos_iff_ne_zero.mp hi), ih1, hlen]

theorem getScheme_scheme (scheme rest : List Char) (hs : isScheme scheme = true) :
    url.getScheme (scheme ++ ':' :: rest) = .ok (scheme, rest) := by
  cases scheme with
  | nil => exact absurd hs (by decide)
  | cons c cs =>
    simp only [isScheme, Bool.and_eq_true, Bool.or_eq_true, decide_eq_true_eq,
      List.all_eq_true] at hs
    unfold url.getScheme
    rw [List.cons_append, url.getSchemeLoop]
    rw [if_pos hs.1, getSchemeLoop_scheme _ cs rest 1 Nat.one_pos hs.2]
    simp [Nat.add_comm 1]

theorem mem_url_cases (scheme host p : List Char) (c : Char)
    (hc : c ∈ scheme ++ ':' :: '/' :: '/' :: (host ++ p)) :
    c ∈ scheme ∨ c = ':' ∨ c = '/' ∨ c ∈ host ∨ c ∈ p := by
  simp only [List.mem_append, List.mem_cons] at hc
  rcases hc with h | h | h | h | h | h
  · exact Or.inl h
  · exact Or.inr (Or.inl h)
  · exact Or.inr (Or.inr (Or.inl h))
  · exact Or.inr (Or.inr (Or.inl h))
  · exact Or.inr (Or.inr (Or.inr (Or.inl h)))
  · exact Or.inr (Or.inr (Or.inr (Or.inr h)))

theorem isScheme_bytes (scheme : List Char) (hs : isScheme scheme = true) :
    scheme ≠ [] ∧ ∀ c ∈ scheme, isSchemeByte c = true := by
  cases scheme with
  | nil => exact absurd hs (by decide)
  | cons c cs =>
    simp only [isScheme, Bool.and_eq_true, Bool.or_eq_true, decide_eq_true_eq,
      List.all_eq_true] at hs
    refine ⟨List.cons_ne_nil _ _, ?_⟩
    intro d hd
    rcases List.mem_cons.mp hd with h | h
    · subst h
      simp only [isSchemeByte, Bool.or_eq_true, Bool.and_eq_true, decide_eq_true_eq]
      exact Or.inl (Or.inl hs.1)
    · exact hs.2 d h

theorem toNat_ofNat_ascii (n : Nat) (h : n < 128) : (Char.ofNat n).toNat = n := by
  interval_cases n <;> rfl

theorem ToLower_ne_nil (s : List Char) (h : s ≠ []) : strings.ToLower s ≠ [] := by
  unfold strings.ToLower
  simpa using h

/-- The lower-case form of a scheme byte is a scheme byte that is no capital letter. -/
theorem lower_isSchemeByte (c : Char) (hc : isSchemeByte c = true) :
    isSchemeByte (if 65 ≤ c.toNat ∧ c.toNat ≤ 90 then Char.ofNat (c.toNat + 32) else c) = true ∧
    ¬ (65 ≤ (if 65 ≤ c.toNat ∧ c.toNat ≤ 90 then Char.ofNat (c.toNat + 32) else c).toNat ∧
      (if 65 ≤ c.toNat ∧ c.toNat ≤ 90 then Char.ofNat (c.toNat + 32) else c).toNat ≤ 90) := by
  by_cases hu : 65 ≤ c.toNat ∧ c.toNat ≤ 90
  · rw [if_pos hu]
    have ht := toNat_ofNat_ascii (c.toNat + 32) (by omega)
    refine ⟨?_, by rw [ht]; omega⟩
    simp only [isSchemeByte, Bool.or_eq_true, Bool.and_eq_true, decide_eq_true_eq, ht]
    exact Or.inl (Or.inl (Or.inl ⟨by omega, by omega⟩))
  · rw [if_neg hu]
    exact ⟨hc, hu⟩

theorem ToLower_bytes (s : List Char) (h : ∀ c ∈ s, isSchemeByte c = true) :
    ∀ c ∈ strings.ToLower s, isSchemeByte c = true ∧ ¬ (65 ≤ c.toNat ∧ c.toNat ≤ 90) := by
  intro c hc
  unfold strings.ToLower at hc
  obtain ⟨d, hd, hdc⟩ := List.mem_map.mp hc
  subst hdc
  exact lower_isSchemeByte d (h d hd)

/-- The lower-case form of a scheme is a scheme, and is its own lower-case form. -/
theorem isScheme_ToLower (scheme : List Char) (hs : isScheme scheme = true) :
    isScheme (strings.ToLower scheme) = true ∧
    strings.ToLower (strings.ToLower scheme) = strings.ToLower scheme := by
  have hb := ToLower_bytes scheme (isScheme_bytes scheme hs).2
  refine ⟨?_, ToLower_of_lower _ (fun c hc => (hb c hc).2)⟩
  cases scheme with
  | nil => exact absurd hs (by decide)
  | cons c cs =>
    simp only [isScheme, Bool.and_eq_true, Bool.or_eq_true, decide_eq_true_eq,
      List.all_eq_true] at hs
    have h1 := hb _ (by unfold strings.ToLower; exact List.mem_cons_self _ _)
    have hrest : ∀ d ∈ strings.ToLower cs, isSchemeByte d = true := fun d hd =>
      (hb d (by unfold strings.ToLower at hd ⊢; exact List.mem_cons_of_mem _ hd)).1
    unfold strings.ToLower at h1 hrest ⊢
    simp only [List.map_cons, isScheme, Bool.and_eq_true, Bool.or_eq_true, decide_eq_true_eq,
      List.all_eq_true]
    refine ⟨?_, hrest⟩
    by_cases hu : 65 ≤ c.toNat ∧ c.toNat ≤ 90
    · rw [if_pos hu, toNat_ofNat_ascii (c.toNat + 32) (by omega)]
      exact Or.inl ⟨by omega, by omega⟩
    · rw [if_neg hu]
      rcases hs.1 with h | h
      · exact Or.inl h
      · exact absurd h hu

theorem isHost_bytes (host : List Char) (hh : isHost host = true) :
    host ≠ [] ∧ ∀ c ∈ host, isPlain c = true := by
  simp only [isHost, Bool.and_eq_true, Bool.not_eq_true', List.isEmpty_eq_false,
    List.all_eq_true] at hh
  exact hh

/-- The bytes of a URL made of a scheme, a plain host and a plain path are none of `#`
and `?` and no control bytes. -/
theorem url_bytes (scheme host p : List Char) (hs : isScheme scheme = true)
    (hh : isHost host = true) (hp : ∀ c ∈ p, isPathByte c = true) (c : Char)
    (hc : c ∈ scheme ++ ':' :: '/' :: '/' :: (host ++ p)) :
    c ≠ '#' ∧ c ≠ '?' ∧ 32 ≤ c.toNat ∧ c.toNat ≠ 127 := by
  rcases mem_url_cases scheme host p c hc with h | h | h | h | h
  · have hb := (isScheme_bytes scheme hs).2 c h
    exact ⟨isSchemeByte_ne c '#' hb (by decide), isSchemeByte_ne c '?' hb (by decide),
      (isSchemeByte_toNat c hb).1, (isSchemeByte_toNat c hb).2⟩
  · subst h; decide
  · subst h; decide
  · have hb := (isHost_bytes host hh).2 c h
    exact ⟨isPlain_ne c '#' hb (by decide), isPlain_ne c '?' hb (by decide),
      (isPlain_toNat c hb).1, (isPlain_toNat c hb).2⟩
  · have hb := hp c h
    exact ⟨isPathByte_ne c '#' hb (by decide), isPathByte_ne c '?' hb (by decide),
      (isPathByte_toNat c hb).1, (isPathByte_toNat c hb).2⟩

theorem parseRest_plain (u : url.URL) (host p : List Char) (hu : u.Scheme ≠ [])
    (hh : isHost host = true) (hp : ∀ c ∈ p, isPathByte c = true)
    (hp0 : p = [] ∨ ∃ p1, p = '/' :: p1) :
    url.parseRest u ('/' :: '/' :: (host ++ p)) false =
      .ok { u with User := none, Host := host, Path := p, RawPath := [] } := by
  have hpl := (isHost_bytes host hh).2
  have hslash : '/' ∉ host := fun hm => isPlain_ne '/' '/' (hpl _ hm) (by decide) rfl
  unfold url.parseRest
  have h1 : strings.HasPrefix ('/' :: '/' :: (host ++ p)) ['/', '/'] = true := by
    simp [strings.HasPrefix, List.isPrefixOf]
  rw [if_pos ⟨Or.inl hu, h1⟩]
  simp only [List.drop_succ_cons, List.drop_zero]
  rcases hp0 with h0 | ⟨p1, h0⟩
  · subst h0
    rw [List.append_nil, IndexByte_of_not_mem host '/' hslash]
    simp only [parseAuthority_plain host hpl]
    exact setPath_plain _ [] hp
  · subst h0
    rw [IndexByte_append_cons host p1 '/' hslash]
    simp only [List.take_left', List.drop_left', parseAuthority_plain host hpl]
    exact setPath_plain _ _ hp

theorem Parse_plain (scheme host p : List Char) (hs : isScheme scheme = true)
    (hh : isHost host = true) (hp : ∀ c ∈ p, isPathByte c = true)
    (hp0 : p = [] ∨ ∃ p1, p = '/' :: p1) :
    url.Parse (scheme ++ ':' :: '/' :: '/' :: (host ++ p)) =
      .ok { Scheme := strings.ToLower scheme, Host := host, Path := p } := by
  have hb := url_bytes scheme host p hs hh hp
  have hsb := isScheme_bytes scheme hs
  have hhash : '#' ∉ scheme ++ ':' :: '/' :: '/' :: (host ++ p) :=
    fun hm => (hb _ hm).1 rfl
  have hq : '?' ∉ '/' :: '/' :: (host ++ p) := by
    intro hm
    exact (hb '?' (List.mem_append_right _ (List.mem_cons_of_mem _ hm))).2.1 rfl
  have hctl : url.stringContainsCTLByte (scheme ++ ':' :: '/' :: '/' :: (host ++ p)) = false := by
    unfold url.stringContainsCTLByte
    rw [List.any_eq_false]
    intro c hc
    have := hb c hc
    simp only [Bool.or_eq_true, decide_eq_true_eq, not_or, Nat.not_lt]
    exact ⟨this.2.2.1, this.2.2.2⟩
  have hstar : scheme ++ ':' :: '/' :: '/' :: (host ++ p) ≠ ['*'] := by
    intro h
    have := congrArg List.length h
    simp only [List.length_append, List.length_cons, List.length_nil] at this
    omega
  have hlow : strings.ToLower scheme ≠ [] := ToLower_ne_nil scheme hsb.1
  unfold url.Parse
  rw [CutByte_of_not_mem _ '#' hhash]
  simp only
  have hparse : url.parse (scheme ++ ':' :: '/' :: '/' :: (host ++ p)) false =
      .ok { Scheme := strings.ToLower scheme, Host := host, Path := p } := by
    unfold url.parse
    rw [hctl]
    simp only [Bool.false_eq_true, if_false, and_false, if_neg hstar,
      getScheme_scheme scheme _ hs, HasSuffix_singleton_of_not_mem _ '?' hq,
      Bool.false_and, CutByte_of_not_mem _ '?' hq]
    have hpre : strings.HasPrefix ('/' :: '/' :: (host ++ p)) ['/'] = true := by
      simp [strings.HasPrefix, List.isPrefixOf]
    simp only [hpre, Bool.not_true, Bool.false_eq_true, false_and, if_false]
    rw [parseRest_plain _ host p hlow hh hp hp0]
  rw [hparse]
  simp

/-! ## URL assembly: joining and cleaning the path -/

theorem intercalate_single (s : List Char) : List.intercalate ['/'] [s] = s := by
  simp [List.intercalate]

theorem intercalate_cons_cons (s t : List Char) (ss : List (List Char)) :
    List.intercalate ['/'] (s :: t :: ss) = s ++ '/' :: List.intercalate ['/'] (t :: ss) := by
  simp [List.intercalate]

theorem isSegment_bytes (s : List Char) (hs : isSegment s = true) :
    s ≠ [] ∧ (∀ c ∈ s, isPlain c = true) ∧ s ≠ ['.'] ∧ s ≠ ['.', '.'] := by
  simp only [isSegment, Bool.and_eq_true, Bool.not_eq_true', List.isEmpty_eq_false,
    List.all_eq_true, decide_eq_true_eq] at hs
  exact ⟨hs.1.1.1, hs.1.1.2, hs.1.2, hs.2⟩

theorem cleanLoop_nil (rooted : Bool) (fuel : Nat) (out : List Char) (d : Nat) :
    path.cleanLoop rooted fuel [] out d = out := by
  cases fuel <;> rfl

theorem takeWhile_segment (s tail : List Char) (hs : ∀ c ∈ s, isPlain c = true)
    (ht : tail = [] ∨ ∃ t, tail = '/' :: t) :
    (s ++ tail).takeWhile (· ≠ '/') = s ∧ (s ++ tail).dropWhile (· ≠ '/') = tail := by
  have hall : ∀ c ∈ s, (fun c : Char => decide (c ≠ '/')) c = true := by
    intro c hc
    simpa using isPlain_ne c '/' (hs c hc) (by decide)
  rw [List.takeWhile_append_of_pos hall, List.dropWhile_append_of_pos hall]
  rcases ht with h | ⟨t, h⟩
  · subst h; simp
  · subst h; simp

/-- One round of `path.Clean` on a plain segment: the segment is copied to the output,
after a slash unless the output is the leading slash alone. -/
theorem cleanLoop_segment (s tail out : List Char) (fuel d : Nat) (hs : isSegment s = true)
    (ht : tail = [] ∨ ∃ t, tail = '/' :: t) :
    path.cleanLoop true (fuel + 1) (s ++ tail) out d =
      path.cleanLoop true fuel tail
        ((if out.length ≠ 1 then out ++ ['/'] else out) ++ s) d := by
  obtain ⟨hne, hpl, hdot, hdotdot⟩ := isSegment_bytes s hs
  have htw := takeWhile_segment s tail hpl ht
  cases s with
  | nil => exact absurd rfl hne
  | cons c s1 =>
    have hc : c ≠ '/' := isPlain_ne c '/' (hpl c (List.mem_cons_self _ _)) (by decide)
    have hhead : ∀ (l : List Char), (∀ x ∈ l, isPlain x = true) → l ≠ [] →
        (l ++ tail) ≠ [] ∧ (l ++ tail).head? ≠ some '/' := by
      intro l hl hln
      cases l with
      | nil => exact absurd rfl hln
      | cons x xs =>
        refine ⟨by simp, ?_⟩
        simp only [List.cons_append, List.head?_cons, ne_eq, Option.some.injEq]
        exact isPlain_ne x '/' (hl x (List.mem_cons_self _ _)) (by decide)
    have hpl1 : ∀ x ∈ s1, isPlain x = true := fun x hx => hpl x (List.mem_cons_of_mem _ hx)
    have c2 : ¬ (c = '.' ∧ (s1 ++ tail = [] ∨ (s1 ++ tail).head? = some '/')) := by
      rintro ⟨hcd, hr⟩
      have hs1 : s1 ≠ [] := by
        intro h
        subst h hcd
        exact hdot rfl
      have := hhead s1 hpl1 hs1
      rcases hr with hr | hr
      · exact this.1 hr
      · exact this.2 hr
    have c3 : ¬ (c = '.' ∧ (s1 ++ tail).head? = some '.' ∧
        ((s1 ++ tail).tail = [] ∨ (s1 ++ tail).tail.head? = some '/')) := by
      rintro ⟨hcd, hh, hr⟩
      cases s1 with
      | nil =>
        subst hcd
        exact hdot rfl
      | cons x s2 =>
        simp only [List.cons_append, List.head?_cons, Option.some.injEq] at hh
        have hs2 : s2 ≠ [] := by
          intro h
          subst h hcd hh
          exact hdotdot rfl
        have := hhead s2 (fun y hy => hpl1 y (List.mem_cons_of_mem _ hy)) hs2
        simp only [List.cons_append, List.tail_cons] at hr
        rcases hr with hr | hr
        · exact this.1 hr
        · exact this.2 hr
    rw [List.cons_append, path.cleanLoop]
    rw [if_neg hc, if_neg c2, if_neg c3]
    simp only [← List.cons_append, htw.1, htw.2]
    simp

theorem intercalate_bytes (segs : List (List Char)) (h : ∀ s ∈ segs, isSegment s = true) :
    ∀ c ∈ List.intercalate ['/'] segs, isPathByte c = true := by
  induction segs with
  | nil => simp [List.intercalate]
  | cons s ss ih =>
    have hs := (isSegment_bytes s (h s (List.mem_cons_self _ _))).2.1
    have ih1 := ih (fun t ht => h t (List.mem_cons_of_mem _ ht))
    cases ss with
    | nil =>
      rw [intercalate_single]
      exact fun c hc => isPathByte_of_isPlain c (hs c hc)
    | cons t ts =>
      rw [intercalate_cons_cons]
      intro c hc
      simp only [List.mem_append, List.mem_cons] at hc
      rcases hc with hc | hc | hc
      · exact isPathByte_of_isPlain c (hs c hc)
      · subst hc; decide
      · exact ih1 c hc

theorem cleanLoop_segments (segs : List (List Char)) (hne : segs ≠ [])
    (h : ∀ s ∈ segs, isSegment s = true) (fuel : Nat) (out : List Char)
    (hf : (List.intercalate ['/'] segs).length ≤ fuel) (ho : out ≠ []) :
    path.cleanLoop true fuel (List.intercalate ['/'] segs) out 1 =
      (if out.length ≠ 1 then out ++ ['/'] else out) ++ List.intercalate ['/'] segs := by
  induction segs generalizing fuel out with
  | nil => exact absurd rfl hne
  | cons s ss ih =>
    have hs := h s (List.mem_cons_self _ _)
    have hsne := (isSegment_bytes s hs).1
    cases ss with
    | nil =>
      rw [intercalate_single] at hf ⊢
      cases fuel with
      | zero =>
        have : s.length = 0 := Nat.le_zero.mp hf
        exact absurd (List.length_eq_zero.mp this) hsne
      | succ n =>
        have := cleanLoop_segment s [] out n 1 hs (Or.inl rfl)
        rw [List.append_nil] at this
        rw [this, cleanLoop_nil]
    | cons t ts =>
      rw [intercalate_cons_cons] at hf ⊢
      simp only [List.length_append, List.length_cons] at hf
      have hspos : 0 < s.length := List.length_pos.mpr hsne
      cases fuel with
      | zero => omega
      | succ n =>
        rw [cleanLoop_segment s _ out n 1 hs (Or.inr ⟨_, rfl⟩)]
        cases n with
        | zero => omega
        | succ m =>
          rw [path.cleanLoop, if_pos rfl]
          have hlen : ((if out.length ≠ 1 then out ++ ['/'] else out) ++ s).length ≠ 1 := by
            have h1 : 0 < out.length := List.length_pos.mpr ho
            have h2 : 0 < s.length := List.length_pos.mpr hsne
            split <;> simp only [List.length_append, List.length_cons, List.length_nil] <;> omega
          rw [ih (List.cons_ne_nil _ _) (fun x hx => h x (List.mem_cons_of_mem _ hx)) m _
            (by omega) (by simp [hsne])]
          rw [if_pos hlen]
          simp

theorem Clean_segments (segs : List (List Char)) (hne : segs ≠ [])
    (h : ∀ s ∈ segs, isSegment s = true) (lead : Bool) :
    path.Clean ('/' :: '/' :: (optSlash lead ++ List.intercalate ['/'] segs)) =
      '/' :: List.intercalate ['/'] segs := by
  unfold path.Clean
  simp only [if_true]
  have key : path.cleanLoop true (('/' :: (optSlash lead ++ List.intercalate ['/'] segs)).length + 1)
      ('/' :: (optSlash lead ++ List.intercalate ['/'] segs)) ['/'] 1 =
      '/' :: List.intercalate ['/'] segs := by
    rw [path.cleanLoop, if_pos rfl]
    cases lead with
    | false =>
      simp only [optSlash, Bool.false_eq_true, if_false, List.nil_append, List.length_cons]
      rw [cleanLoop_segments segs hne h _ ['/'] (by omega) (by simp)]
      simp
    | true =>
      simp only [optSlash, if_true, List.singleton_append, List.length_cons]
      rw [path.cleanLoop, if_pos rfl]
      rw [cleanLoop_segments segs hne h _ ['/'] (by omega) (by simp)]
      simp
  rw [key]
  simp

theorem Join_segments (segs : List (List Char)) (hne : segs ≠ [])
    (h : ∀ s ∈ segs, isSegment s = true) (lead : Bool) :
    path.Join [['/'], optSlash lead ++ List.intercalate ['/'] segs] =
      '/' :: List.intercalate ['/'] segs := by
  unfold path.Join
  have hsum : ¬ (List.map List.length
      [['/'], optSlash lead ++ List.intercalate ['/'] segs]).sum = 0 := by
    simp
  rw [if_neg hsum]
  have hbuf : path.joinBuf [] [['/'], optSlash lead ++ List.intercalate ['/'] segs] =
      '/' :: '/' :: (optSlash lead ++ List.intercalate ['/'] segs) := by
    simp [path.joinBuf]
  rw [hbuf, Clean_segments segs hne h lead]

/-! ## URL assembly: the result -/

theorem String_plain (scheme host p q : List Char) (hsne : scheme ≠ [])
    (hh : isHost host = true) (hp : ∀ c ∈ p, isPathByte c = true) :
    ({ Scheme := scheme, Host := host, Path := p, RawQuery := q } : url.URL).String =
      scheme ++ ':' :: '/' :: '/' :: (host ++
        ((if p ≠ [] ∧ p.head? ≠ some '/' then ['/'] else []) ++ p ++
          (if q = [] then [] else '?' :: q))) := by
  obtain ⟨hhne, hhpl⟩ := isHost_bytes host hh
  have hesc : ({ Scheme := scheme, Host := host, Path := p, RawQuery := q } : url.URL).EscapedPath
      = p := EscapedPath_plain _ hp rfl
  unfold url.URL.String
  simp only [hesc, escape_host_eq_self host hhpl]
  simp only [ne_eq, hsne, not_false_eq_true, if_true, not_true_eq_false, if_false, hhne,
    true_or, Bool.false_eq_true, false_and, Option.isSome_none, or_false, and_true,
    List.append_nil, false_or]
  have hbuf : ∀ (x : List Char), ¬ (scheme ++ [':'] ++ (['/', '/'] ++ host) ++ x = []) := by
    intro x h
    have := congrArg List.length h
    have h1 : 0 < scheme.length := List.length_pos.mpr hsne
    simp only [List.length_append, List.length_cons, List.length_nil] at this
    omega
  by_cases hrel : ¬ p = [] ∧ ¬ p.head? = some '/'
  · by_cases hq : q = []
    · simp [hrel, hq]
    · simp [hrel, hq]
  · by_cases hq : q = []
    · simp [hrel, hq, hsne]
    · simp [hrel, hq, hsne]

theorem intercalate_last (segs : List (List Char)) (hne : segs ≠ [])
    (h : ∀ s ∈ segs, isSegment s = true) :
    ∃ l c, List.intercalate ['/'] segs = l ++ [c] ∧ isPlain c = true := by
  induction segs with
  | nil => exact absurd rfl hne
  | cons s ss ih =>
    obtain ⟨hsne, hpl, _, _⟩ := isSegment_bytes s (h s (List.mem_cons_self _ _))
    cases ss with
    | nil =>
      rw [intercalate_single]
      exact ⟨s.dropLast, s.getLast hsne, (List.dropLast_append_getLast hsne).symm,
        hpl _ (List.getLast_mem hsne)⟩
    | cons t ts =>
      obtain ⟨l, c, hl, hc⟩ := ih (List.cons_ne_nil _ _)
        (fun x hx => h x (List.mem_cons_of_mem _ hx))
      rw [intercalate_cons_cons, hl]
      exact ⟨s ++ '/' :: l, c, by simp, hc⟩

theorem HasSuffix_path (segs : List (List Char)) (hne : segs ≠ [])
    (h : ∀ s ∈ segs, isSegment s = true) (lead : Bool) :
    strings.HasSuffix (optSlash lead ++ List.intercalate ['/'] segs) ['/'] = false := by
  obtain ⟨l, c, hl, hc⟩ := intercalate_last segs hne h
  unfold strings.HasSuffix
  rw [Bool.eq_false_iff]
  intro hs
  rw [List.isSuffixOf_iff_suffix, hl, ← List.append_assoc] at hs
  obtain ⟨t, ht⟩ := hs
  have := List.append_inj_right' ht rfl
  simp only [List.cons.injEq, and_true] at this
  exact isPlain_ne c '/' hc (by decide) this.symm

theorem JoinPath_plain (scheme host : List Char) (segs : List (List Char)) (slash lead : Bool)
    (hne : segs ≠ []) (h : ∀ s ∈ segs, isSegment s = true) :
    ({ Scheme := scheme, Host := host, Path := optSlash slash } : url.URL).JoinPath
        [optSlash lead ++ List.intercalate ['/'] segs] =
      { Scheme := scheme, Host := host,
        Path := optSlash slash ++ List.intercalate ['/'] segs } := by
  have hI := intercalate_bytes segs h
  have hesc : ({ Scheme := scheme, Host := host, Path := optSlash slash } : url.URL).EscapedPath
      = optSlash slash := by
    apply EscapedPath_plain _ _ rfl
    intro c hc
    cases slash with
    | false => simp [optSlash] at hc
    | true =>
      simp only [optSlash, if_true, List.mem_singleton] at hc
      subst hc; decide
  unfold url.URL.JoinPath
  simp only [hesc]
  cases slash with
  | false =>
    have hrel : strings.HasPrefix (optSlash false) ['/'] = false := by decide
    simp only [hrel, Bool.not_false, if_true, List.getLastD_cons, List.getLastD_nil]
    have hj : path.Join [['/'], optSlash lead ++ List.intercalate ['/'] segs] =
        '/' :: List.intercalate ['/'] segs := Join_segments segs hne h lead
    simp only [optSlash, Bool.false_eq_true, if_false] at hj ⊢
    rw [hj]
    have hsuf := HasSuffix_path segs hne h lead
    simp only [optSlash] at hsuf
    simp only [hsuf, Bool.false_eq_true, false_and, if_false, List.drop_succ_cons,
      List.drop_zero, List.nil_append]
    rw [setPath_plain _ _ hI]
  | true =>
    have hrel : strings.HasPrefix (optSlash true) ['/'] = true := by decide
    simp only [hrel, Bool.not_true, Bool.false_eq_true, if_false, List.getLastD_cons,
      List.getLastD_nil]
    have hj : path.Join [['/'], optSlash lead ++ List.intercalate ['/'] segs] =
        '/' :: List.intercalate ['/'] segs := Join_segments segs hne h lead
    simp only [optSlash, if_true] at hj ⊢
    rw [hj]
    have hsuf := HasSuffix_path segs hne h lead
    simp only [optSlash] at hsuf
    simp only [hsuf, Bool.false_eq_true, false_and, if_false, List.singleton_append]
    rw [setPath_plain _ _ (by
      intro c hc
      rcases List.mem_cons.mp hc with hc | hc
      · subst hc; decide
      · exact hI c hc)]

/-- C7 (amended). URL assembly: for a base made of a scheme (a letter followed by
letters, digits, `+`, `-`, `.`, in either case), `://`, a host name of plain bytes and
at most one trailing slash, a path made of plain segments other than `.` and `..` joined
by slashes with or without a leading slash, and any query text `q`, `buildURL` succeeds
and returns the scheme in lower case, `://`, the host, one slash and the segments joined
by slashes, followed by `?` and `q` as it is when `q` is not empty and by nothing when
it is. -/
theorem C7_buildURL_joins (scheme host : List Char) (segs : List (List Char)) (q : String)
    (baseSlash pathSlash : Bool) (hs : isScheme scheme = true) (hh : isHost host = true)
    (hne : segs ≠ []) (hseg : ∀ s ∈ segs, isSegment s = true) :
    buildURL (String.mk (scheme ++ [':', '/', '/'] ++ host ++ optSlash baseSlash))
        (String.mk (optSlash pathSlash ++ List.intercalate ['/'] segs)) q =
      .ok (String.mk (strings.ToLower scheme ++ [':', '/', '/'] ++ host ++ ['/'] ++
        List.intercalate ['/'] segs ++ (if q.data = [] then [] else '?' :: q.data))) := by
  have hlow := isScheme_ToLower scheme hs
  have hlne : strings.ToLower scheme ≠ [] := ToLower_ne_nil scheme (isScheme_bytes scheme hs).1
  have hI := intercalate_bytes segs hseg
  have hIs : ∀ c ∈ '/' :: List.intercalate ['/'] segs, isPathByte c = true := by
    intro c hc
    rcases List.mem_cons.mp hc with hc | hc
    · subst hc; decide
    · exact hI c hc
  have hbase : scheme ++ [':', '/', '/'] ++ host ++ optSlash baseSlash =
      scheme ++ ':' :: '/' :: '/' :: (host ++ optSlash baseSlash) := by simp
  have hpb : ∀ c ∈ optSlash baseSlash, isPathByte c = true := by
    intro c hc
    cases baseSlash with
    | false => simp [optSlash] at hc
    | true =>
      simp only [optSlash, if_true, List.mem_singleton] at hc
      subst hc; decide
  have hpb0 : optSlash baseSlash = [] ∨ ∃ p1, optSlash baseSlash = '/' :: p1 := by
    cases baseSlash with
    | false => exact Or.inl rfl
    | true => exact Or.inr ⟨[], rfl⟩
  have hjoin : url.JoinPath (scheme ++ ':' :: '/' :: '/' :: (host ++ optSlash baseSlash))
      [optSlash pathSlash ++ List.intercalate ['/'] segs] =
      .ok (strings.ToLower scheme ++
        ':' :: '/' :: '/' :: (host ++ '/' :: List.intercalate ['/'] segs)) := by
    unfold url.JoinPath
    rw [Parse_plain scheme host _ hs hh hpb hpb0]
    simp only [JoinPath_plain (strings.ToLower scheme) host segs baseSlash pathSlash hne hseg]
    rw [String_plain (strings.ToLower scheme) host _ [] hlne hh (by
      intro c hc
      rcases List.mem_append.mp hc with hc | hc
      · exact hpb c hc
      · exact hI c hc)]
    obtain ⟨l, c, hl, hc⟩ := intercalate_last segs hne hseg
    cases baseSlash with
    | false =>
      have hhead : (List.intercalate ['/'] segs).head? ≠ some '/' := by
        intro hh1
        have hmem : '/' ∈ List.intercalate ['/'] segs := List.mem_of_mem_head? hh1
        cases segs with
        | nil => exact hne rfl
        | cons s ss =>
          obtain ⟨hsne, hpl, _, _⟩ := isSegment_bytes s (hseg s (List.mem_cons_self _ _))
          cases s with
          | nil => exact hsne rfl
          | cons x xs =>
            have hx := isPlain_ne x '/' (hpl x (List.mem_cons_self _ _)) (by decide)
            cases ss with
            | nil =>
              rw [intercalate_single] at hh1
              simp only [List.head?_cons, Option.some.injEq] at hh1
              exact hx hh1
            | cons t ts =>
              rw [intercalate_cons_cons] at hh1
              simp only [List.cons_append, List.head?_cons, Option.some.injEq] at hh1
              exact hx hh1
      have hne1 : List.intercalate ['/'] segs ≠ [] := by
        rw [hl]; simp
      simp [optSlash, hhead, hne1]
    | true =>
      simp [optSlash]
  unfold buildURL
  simp only [hbase, hjoin]
  rw [Parse_plain (strings.ToLower scheme) host _ hlow.1 hh hIs (Or.inr ⟨_, rfl⟩), hlow.2]
  simp only
  rw [String_plain (strings.ToLower scheme) host _ q.data hlne hh hIs]
  simp

/-- URL assembly on `https://example.com` and `foo/bar` with the slash on either side,
without and with a query, and with the scheme in capitals. -/
theorem C7_buildURL_joins_witness :
    buildURL "https://example.com" "/foo/bar" "" = .ok "https://example.com/foo/bar" ∧
    buildURL "https://example.com/" "foo/bar" "" = .ok "https://example.com/foo/bar" ∧
    buildURL "https://example.com/" "/foo/bar" "a=1&b=2" =
      .ok "https://example.com/foo/bar?a=1&b=2" ∧
    buildURL "HTTPS://example.com" "foo/bar" "" = .ok "https://example.com/foo/bar" :=
  ⟨C7_buildURL_joins "https".data "example.com".data ["foo".data, "bar".data] "" false true
      (by decide) (by decide) (by decide) (by decide),
    C7_buildURL_joins "https".data "example.com".data ["foo".data, "bar".data] "" true false
      (by decide) (by decide) (by decide) (by decide),
    C7_buildURL_joins "https".data "example.com".data ["foo".data, "bar".data] "a=1&b=2" true true
      (by decide) (by decide) (by decide) (by decide),
    C7_buildURL_joins "HTTPS".data "example.com".data ["foo".data, "bar".data] "" false false
      (by decide) (by decide) (by decide) (by decide)⟩

/-- The claim C7 as stated fails on the code: a base whose scheme is in capitals
comes back with the scheme in lower case, so the result is not the base joined with the
path; and a path with a `..` segment comes back without that segment and the one before
it, and one with a `.` segment without that segment, so segments are dropped. -/
theorem C7_base_and_path_not_kept :
    buildURL "HTTPS://example.com" "/foo/bar" "" = .ok "https://example.com/foo/bar" ∧
    buildURL "HTTPS://example.com" "/foo/bar" "" ≠ .ok "HTTPS://example.com/foo/bar" ∧
    buildURL "https://example.com" "/foo/../bar" "" = .ok "https://example.com/bar" ∧
    buildURL "https://example.com" "/foo/../bar" "" ≠ .ok "https://example.com/foo/../bar" ∧
    buildURL "https://example.com" "/foo/./bar" "" = .ok "https://example.com/foo/bar" ∧
    buildURL "https://example.com" "/foo/./bar" "" ≠ .ok "https://example.com/foo/./bar" := by
  decide

end Reqbuilder
